import Mathlib

/-!
Verification development for the parquetlens TUI rendering/caching core.

The definitions below are shallow embeddings of the TypeScript source:

* the byte-allocation engine (`buildByteSegments` and its helpers) from
  `src/apps/parquetlens/src/tui/utils.ts`;
* the grid layout engine (`buildGridLines`, `padCell`, `buildColumnRanges`);
* the row-window cache transitions of the `App` load-window effect in
  `src/apps/parquetlens/src/tui/layout-viewer.tsx`;
* the tab state machine (`getAvailableTabs`, `cycleTab`, `getTabFromKeyName`)
  and the selection-reconciliation effect of `TableViewer`.

Modelling conventions: JavaScript `bigint` values are `Int` (bigint `/` and `%`
truncate toward zero, hence `Int.tdiv` / `Int.tmod`); JavaScript array indices
and lengths are `Nat`; JavaScript strings are `List Char` so that `slice`,
`padEnd` and `length` have exact counterparts; `null`/`undefined` are `Option`.
-/

namespace Parquetlens

/-! ### Byte allocation engine (`buildByteSegments`, utils.ts) -/

/-- One working allocation record of `buildByteSegments`. -/
structure Allocation where
  columnIndex : Nat
  bytes : Int
  width : Int
  remainder : Int
deriving Repr, DecidableEq

/-- One rendered bar-chart segment (the `chunk` back-reference is dropped:
only `columnIndex`, `width` and `bytes` matter to the layout claims). -/
structure ByteSegment where
  columnIndex : Nat
  width : Int
  bytes : Int
deriving Repr, DecidableEq

/-- `chunksByColumn.reduce((count, chunk) => count + (chunk?.bytes && chunk.bytes > 0n ? 1 : 0), 0)` -/
def countNonZero (chunksByColumn : List (Option Int)) : Nat :=
  chunksByColumn.foldl
    (fun count chunk =>
      count + (match chunk with
        | some b => if 0 < b then 1 else 0
        | none => 0))
    0

/-- The body of the `chunksByColumn.map((chunk, columnIndex) => ...)` building
`baseAllocations`: zero reservation for absent/empty chunks, one reserved unit
for positive chunks when `shouldReserveMinWidth`. -/
def mkBaseAllocation (shouldReserveMinWidth : Bool) (pair : Nat × Option Int) : Allocation :=
  let bytes := pair.2.getD 0
  if bytes ≤ 0 then
    { columnIndex := pair.1, bytes := bytes, width := 0, remainder := 0 }
  else
    { columnIndex := pair.1, bytes := bytes
      width := if shouldReserveMinWidth then 1 else 0, remainder := 0 }

/-- The proportional-distribution pass: for a positive-byte allocation,
`width += Number(scaled / totalBytes)` and `remainder = scaled % totalBytes`
where `scaled = bytes * distributableWidth` (bigint division truncates). -/
def applyDistribution (totalBytes distributableWidth : Int) (a : Allocation) : Allocation :=
  if a.bytes ≤ 0 then a
  else
    { a with
      width := a.width + (a.bytes * distributableWidth).tdiv totalBytes
      remainder := (a.bytes * distributableWidth).tmod totalBytes }

/-- The `.sort` comparator: larger remainder first, ties (equal remainders)
by ascending original column index. -/
def allocBefore (left right : Allocation) : Bool :=
  if left.remainder = right.remainder then decide (left.columnIndex ≤ right.columnIndex)
  else decide (right.remainder < left.remainder)

/-- Stable insertion of one element for `sortBy`. -/
def orderedInsert (le : α → α → Bool) (a : α) : List α → List α
  | [] => [a]
  | b :: l => if le a b then a :: b :: l else b :: orderedInsert le a l

/-- Stable sort modelling `Array.prototype.sort` with a consistent comparator
(ECMAScript sorts are stable; `allocBefore` is total, so the sorted order is
determined by the comparator alone). -/
def sortBy (le : α → α → Bool) : List α → List α
  | [] => []
  | a :: l => orderedInsert le a (sortBy le l)

/-- `allocs.map`: add one width unit to the allocation whose `columnIndex`
matches (the JS loop mutates the ranked entry in place; entries are identified
by their distinct `columnIndex`). -/
def bumpWidth (allocs : List Allocation) (idx : Nat) : List Allocation :=
  allocs.map fun a => if a.columnIndex = idx then { a with width := a.width + 1 } else a

/-- The `while (remaining > 0 && ranked.length > 0)` leftover loop:
`fuel` is the (nonnegative) remaining width, `cursor` the running index into
the ranked list, taken modulo its length. -/
def roundRobin (ranked : List Nat) (fuel cursor : Nat) (allocs : List Allocation) :
    List Allocation :=
  match fuel with
  | 0 => allocs
  | fuel' + 1 =>
    if ranked.isEmpty then allocs
    else roundRobin ranked fuel' (cursor + 1)
      (bumpWidth allocs (ranked.getD (cursor % ranked.length) 0))

/-- Reservation predicate: `nonZeroColumnCount > 0 && chartWidth >= nonZeroColumnCount`. -/
def shouldReserveMinWidth (chunksByColumn : List (Option Int)) (chartWidth : Int) : Bool :=
  decide (0 < countNonZero chunksByColumn ∧ (countNonZero chunksByColumn : Int) ≤ chartWidth)

/-- `reservedWidth`: `shouldReserveMinWidth ? nonZeroColumnCount : 0`. -/
def reservedWidthOf (chunksByColumn : List (Option Int)) (chartWidth : Int) : Int :=
  if shouldReserveMinWidth chunksByColumn chartWidth then (countNonZero chunksByColumn : Int)
  else 0

/-- The allocation list after the reservation pass and the proportional pass
(the first part of `buildByteSegments`, through the `distributableWidth > 0` loop). -/
def distributedAllocations (chunksByColumn : List (Option Int)) (totalBytes chartWidth : Int) :
    List Allocation :=
  let reserve := shouldReserveMinWidth chunksByColumn chartWidth
  let baseAllocations := (List.enumFrom 0 chunksByColumn).map (mkBaseAllocation reserve)
  let distributableWidth := chartWidth - reservedWidthOf chunksByColumn chartWidth
  if 0 < distributableWidth then
    baseAllocations.map (applyDistribution totalBytes distributableWidth)
  else baseAllocations

/-- The ranked recipients of leftover cells: positive-byte allocations sorted
by descending remainder (ties by ascending column index), identified by their
distinct column indices. -/
def rankedIndexes (allocs : List Allocation) : List Nat :=
  (sortBy allocBefore (allocs.filter fun a => decide (0 < a.bytes))).map Allocation.columnIndex

/-- `buildByteSegments(chunksByColumn, totalBytes, chartWidth)` from utils.ts:
apportions `chartWidth` character cells to the column chunks of one row group,
reserving one cell per nonzero chunk when they all fit, distributing the rest
by floored proportional share, and handing leftover cells to the largest
remainders. -/
def buildByteSegments (chunksByColumn : List (Option Int)) (totalBytes chartWidth : Int) :
    List ByteSegment :=
  if chartWidth ≤ 0 ∨ totalBytes ≤ 0 ∨ chunksByColumn = [] then []
  else
    let distributed := distributedAllocations chunksByColumn totalBytes chartWidth
    let remaining := chartWidth - (distributed.map Allocation.width).sum
    let final :=
      if 0 < remaining then
        roundRobin (rankedIndexes distributed) remaining.toNat 0 distributed
      else distributed
    (final.filter fun a => decide (0 < a.width)).map fun a =>
      { columnIndex := a.columnIndex, width := a.width, bytes := a.bytes }

/-- Sum of the allocated widths of a segment list. -/
def segmentWidthSum (segments : List ByteSegment) : Int :=
  (segments.map ByteSegment.width).sum

/-- Sum of the positive weights of a chunk list (absent chunks weigh nothing). -/
def sumPosBytes (chunksByColumn : List (Option Int)) : Int :=
  (chunksByColumn.map fun c => if 0 < c.getD 0 then c.getD 0 else 0).sum

/-! #### Permutation facts for the stable sort -/

theorem orderedInsert_perm (le : α → α → Bool) (a : α) (l : List α) :
    (orderedInsert le a l).Perm (a :: l) := by
  induction l with
  | nil => simp [orderedInsert]
  | cons b l ih =>
    simp only [orderedInsert]
    by_cases h : le a b
    · simp [h]
    · simp only [h, if_false]
      exact (ih.cons b).trans (List.Perm.swap a b l)

theorem sortBy_perm (le : α → α → Bool) (l : List α) : (sortBy le l).Perm l := by
  induction l with
  | nil => simp [sortBy]
  | cons a l ih => exact (orderedInsert_perm le a (sortBy le l)).trans (ih.cons a)

/-! #### Counting positive chunks -/

theorem countNonZero_aux (l : List (Option Int)) (acc : Nat) :
    l.foldl
      (fun count chunk =>
        count + (match chunk with
          | some b => if 0 < b then 1 else 0
          | none => 0))
      acc = acc + countNonZero l := by
  induction l generalizing acc with
  | nil => simp [countNonZero]
  | cons c l ih =>
    simp only [countNonZero, List.foldl_cons] at *
    rw [ih, ih (0 + _)]
    omega

theorem countNonZero_cons (c : Option Int) (l : List (Option Int)) :
    countNonZero (c :: l) = (if 0 < c.getD 0 then 1 else 0) + countNonZero l := by
  have h : countNonZero (c :: l) =
      (0 + (match c with | some b => if 0 < b then 1 else 0 | none => 0)) + countNonZero l := by
    simpa [countNonZero, List.foldl_cons] using countNonZero_aux l _
  rw [h]
  cases c <;> simp

theorem countNonZero_pos_of_mem {c : Option Int} {l : List (Option Int)}
    (hmem : c ∈ l) (hpos : 0 < c.getD 0) : 0 < countNonZero l := by
  induction l with
  | nil => cases hmem
  | cons d l ih =>
    rw [countNonZero_cons]
    rcases List.mem_cons.mp hmem with h | h
    · subst h; simp [hpos]
    · have := ih h; omega

/-! #### Shape of the distributed allocation list -/

theorem mkBaseAllocation_columnIndex (b : Bool) (p : Nat × Option Int) :
    (mkBaseAllocation b p).columnIndex = p.1 := by
  simp only [mkBaseAllocation]; split <;> rfl

theorem mkBaseAllocation_bytes (b : Bool) (p : Nat × Option Int) :
    (mkBaseAllocation b p).bytes = p.2.getD 0 := by
  simp only [mkBaseAllocation]; split <;> rfl

theorem mkBaseAllocation_width (b : Bool) (p : Nat × Option Int) :
    (mkBaseAllocation b p).width =
      if 0 < p.2.getD 0 then (if b then 1 else 0) else 0 := by
  simp only [mkBaseAllocation]
  split
  · next h => simp [show ¬ (0 : Int) < p.2.getD 0 by omega]
  · next h => simp [show (0 : Int) < p.2.getD 0 by omega]

theorem applyDistribution_columnIndex (T D : Int) (a : Allocation) :
    (applyDistribution T D a).columnIndex = a.columnIndex := by
  simp only [applyDistribution]; split <;> rfl

theorem applyDistribution_bytes (T D : Int) (a : Allocation) :
    (applyDistribution T D a).bytes = a.bytes := by
  simp only [applyDistribution]; split <;> rfl

theorem applyDistribution_width (T D : Int) (a : Allocation) :
    (applyDistribution T D a).width =
      a.width + (if 0 < a.bytes then (a.bytes * D).tdiv T else 0) := by
  simp only [applyDistribution]
  split
  · next h => simp [show ¬ (0 : Int) < a.bytes by omega]
  · next h => simp [show (0 : Int) < a.bytes by omega]

theorem base_map_columnIndex (b : Bool) (chunks : List (Option Int)) (s : Nat) :
    ((List.enumFrom s chunks).map (mkBaseAllocation b)).map Allocation.columnIndex =
      List.range' s chunks.length := by
  induction chunks generalizing s with
  | nil => simp
  | cons c l ih =>
    simp [List.enumFrom_cons, List.range'_succ, mkBaseAllocation_columnIndex, ih]

theorem base_map_bytes (b : Bool) (chunks : List (Option Int)) (s : Nat) :
    ((List.enumFrom s chunks).map (mkBaseAllocation b)).map Allocation.bytes =
      chunks.map (fun c => c.getD 0) := by
  induction chunks generalizing s with
  | nil => simp
  | cons c l ih => simp [List.enumFrom_cons, mkBaseAllocation_bytes, ih]

theorem base_widthSum (b : Bool) (chunks : List (Option Int)) (s : Nat) :
    (((List.enumFrom s chunks).map (mkBaseAllocation b)).map Allocation.width).sum =
      if b then (countNonZero chunks : Int) else 0 := by
  induction chunks generalizing s with
  | nil => cases b <;> simp [countNonZero]
  | cons c l ih =>
    simp only [List.enumFrom_cons, List.map_cons, List.sum_cons, ih,
      mkBaseAllocation_width, countNonZero_cons]
    cases b <;> split <;> simp

theorem distributed_map_columnIndex (chunks : List (Option Int)) (T W : Int) :
    (distributedAllocations chunks T W).map Allocation.columnIndex =
      List.range' 0 chunks.length := by
  simp only [distributedAllocations]
  split
  · rw [List.map_map]
    have hcomp : Allocation.columnIndex ∘ applyDistribution T (W - reservedWidthOf chunks W) =
        fun a => Allocation.columnIndex a := by
      funext a; exact applyDistribution_columnIndex _ _ a
    rw [hcomp]
    exact base_map_columnIndex _ chunks 0
  · exact base_map_columnIndex _ chunks 0

theorem distributed_map_bytes (chunks : List (Option Int)) (T W : Int) :
    (distributedAllocations chunks T W).map Allocation.bytes =
      chunks.map (fun c => c.getD 0) := by
  simp only [distributedAllocations]
  split
  · rw [List.map_map]
    have hcomp : Allocation.bytes ∘ applyDistribution T (W - reservedWidthOf chunks W) =
        fun a => Allocation.bytes a := by
      funext a; exact applyDistribution_bytes _ _ a
    rw [hcomp]
    exact base_map_bytes _ chunks 0
  · exact base_map_bytes _ chunks 0

theorem distributed_length (chunks : List (Option Int)) (T W : Int) :
    (distributedAllocations chunks T W).length = chunks.length := by
  have h := congrArg List.length (distributed_map_columnIndex chunks T W)
  simpa using h

/-! #### Floor-division bounds -/

theorem ediv_add_ediv_le {T : Int} (x y : Int) (hT : 0 < T) :
    x / T + y / T ≤ (x + y) / T := by
  rw [Int.le_ediv_iff_mul_le hT, Int.add_mul]
  have hx := Int.ediv_mul_le x (b := T) (by omega)
  have hy := Int.ediv_mul_le y (b := T) (by omega)
  omega

theorem sum_mul_ediv_le (ys : List Int) (D T : Int) (hT : 0 < T) :
    (ys.map fun y => y * D / T).sum ≤ ys.sum * D / T := by
  induction ys with
  | nil => simp
  | cons y ys ih =>
    simp only [List.map_cons, List.sum_cons, add_mul]
    calc y * D / T + (ys.map fun y => y * D / T).sum
        ≤ y * D / T + ys.sum * D / T := by omega
      _ ≤ (y * D + ys.sum * D) / T := ediv_add_ediv_le _ _ hT

theorem base_map_floorTerm (b : Bool) (chunks : List (Option Int)) (s : Nat) (D T : Int)
    (hT : 0 < T) (hD : 0 ≤ D) :
    (((List.enumFrom s chunks).map (mkBaseAllocation b)).map fun a =>
        if 0 < a.bytes then (a.bytes * D).tdiv T else 0) =
      (chunks.map fun c => if 0 < c.getD 0 then c.getD 0 else 0).map fun y => y * D / T := by
  induction chunks generalizing s with
  | nil => simp
  | cons c l ih =>
    simp only [List.enumFrom_cons, List.map_cons, ih]
    congr 1
    rw [mkBaseAllocation_bytes]
    by_cases hpos : 0 < c.getD 0
    · simp only [hpos, if_true]
      exact Int.tdiv_eq_ediv (by positivity) (by omega)
    · simp [hpos]

theorem reservedWidthOf_le (chunks : List (Option Int)) (W : Int) (hW : 0 < W) :
    reservedWidthOf chunks W ≤ W := by
  rw [reservedWidthOf]
  by_cases h : shouldReserveMinWidth chunks W
  · have := of_decide_eq_true h
    simp [h, this.2]
  · simp [h]; omega

/-- The proportional pass keeps the total width at most `chartWidth`, provided
the positive weights sum to at most `totalBytes`. -/
theorem distributed_widthSum_le (chunks : List (Option Int)) (T W : Int)
    (hT : 0 < T) (hW : 0 < W) (hsum : sumPosBytes chunks ≤ T) :
    ((distributedAllocations chunks T W).map Allocation.width).sum ≤ W := by
  have hreserved := reservedWidthOf_le chunks W hW
  simp only [distributedAllocations]
  split
  · next hD =>
    set reserve := shouldReserveMinWidth chunks W with hres
    set D := W - reservedWidthOf chunks W with hDdef
    have hrval : reservedWidthOf chunks W =
        if reserve then (countNonZero chunks : Int) else 0 := rfl
    have hwidths :
        ((((List.enumFrom 0 chunks).map (mkBaseAllocation reserve)).map
            (applyDistribution T D)).map Allocation.width).sum =
          (((List.enumFrom 0 chunks).map (mkBaseAllocation reserve)).map
              Allocation.width).sum +
            (((List.enumFrom 0 chunks).map (mkBaseAllocation reserve)).map fun a =>
              if 0 < a.bytes then (a.bytes * D).tdiv T else 0).sum := by
      generalize ((List.enumFrom 0 chunks).map (mkBaseAllocation reserve)) = l
      induction l with
      | nil => simp
      | cons a l ihl =>
        simp only [List.map_cons, List.sum_cons, applyDistribution_width, ihl]
        ring
    rw [hwidths, base_widthSum]
    have hfloor :
        (((List.enumFrom 0 chunks).map (mkBaseAllocation reserve)).map fun a =>
            if 0 < a.bytes then (a.bytes * D).tdiv T else 0).sum ≤ D := by
      rw [base_map_floorTerm reserve chunks 0 D T hT (by omega)]
      calc ((chunks.map fun c => if 0 < c.getD 0 then c.getD 0 else 0).map
              fun y => y * D / T).sum
          ≤ (chunks.map fun c => if 0 < c.getD 0 then c.getD 0 else 0).sum * D / T :=
            sum_mul_ediv_le _ D T hT
        _ ≤ T * D / T := by
            apply Int.ediv_le_ediv hT
            apply mul_le_mul_of_nonneg_right _ (by omega)
            exact hsum
        _ = D := Int.mul_ediv_cancel_left D (by omega)
    rw [hrval] at hDdef hreserved
    omega
  · next hD =>
    rw [base_widthSum, ← reservedWidthOf]
    exact hreserved

theorem base_width_nonneg (b : Bool) (chunks : List (Option Int)) (s : Nat) :
    ∀ a ∈ (List.enumFrom s chunks).map (mkBaseAllocation b), 0 ≤ a.width := by
  intro a ha
  rcases List.mem_map.mp ha with ⟨p, _, hp⟩
  subst hp
  rw [mkBaseAllocation_width]
  split <;> [skip; omega]
  split <;> omega

theorem distributed_width_nonneg (chunks : List (Option Int)) (T W : Int) (hT : 0 < T) :
    ∀ a ∈ distributedAllocations chunks T W, 0 ≤ a.width := by
  intro a ha
  simp only [distributedAllocations] at ha
  split at ha
  · next hD =>
    rcases List.mem_map.mp ha with ⟨a0, ha0, hfa⟩
    subst hfa
    rw [applyDistribution_width]
    have h0 := base_width_nonneg _ chunks 0 a0 ha0
    split
    · next hpos =>
      have : 0 ≤ (a0.bytes * (W - reservedWidthOf chunks W)).tdiv T := by
        rw [Int.tdiv_eq_ediv (by positivity) (by omega)]
        exact Int.ediv_nonneg (by positivity) (by omega)
      omega
    · omega
  · exact base_width_nonneg _ chunks 0 a ha

/-- Under reservation, every positive-byte allocation keeps width at least 1
through the proportional pass. -/
theorem distributed_width_ge_one (chunks : List (Option Int)) (T W : Int) (hT : 0 < T)
    (hres : shouldReserveMinWidth chunks W = true) :
    ∀ a ∈ distributedAllocations chunks T W, 0 < a.bytes → 1 ≤ a.width := by
  intro a ha hbytes
  simp only [distributedAllocations] at ha
  split at ha
  · next hD =>
    rcases List.mem_map.mp ha with ⟨a0, ha0, hfa⟩
    subst hfa
    rw [applyDistribution_bytes] at hbytes
    rw [applyDistribution_width]
    rcases List.mem_map.mp ha0 with ⟨p, _, hp⟩
    have hw0 : a0.width = 1 := by
      subst hp
      rw [mkBaseAllocation_width]
      rw [mkBaseAllocation_bytes] at hbytes
      simp [hbytes, hres]
    have htd : 0 ≤ (a0.bytes * (W - reservedWidthOf chunks W)).tdiv T := by
      rw [Int.tdiv_eq_ediv (by positivity) (by omega)]
      exact Int.ediv_nonneg (by positivity) (by omega)
    simp only [hbytes, if_true]
    omega
  · rcases List.mem_map.mp ha with ⟨p, _, hp⟩
    have hw0 : a.width = 1 := by
      subst hp
      rw [mkBaseAllocation_width]
      rw [mkBaseAllocation_bytes] at hbytes
      simp [hbytes, hres]
    omega

theorem filter_pos_length_eq_countNonZero (chunks : List (Option Int)) (T W : Int) :
    ((distributedAllocations chunks T W).filter fun a => decide (0 < a.bytes)).length =
      countNonZero chunks := by
  have hmap := distributed_map_bytes chunks T W
  generalize hl : distributedAllocations chunks T W = l at hmap
  clear hl
  induction chunks generalizing l with
  | nil =>
    cases l with
    | nil => simp [countNonZero]
    | cons a l => simp at hmap
  | cons c cs ih =>
    cases l with
    | nil => simp at hmap
    | cons a l =>
      simp only [List.map_cons, List.cons.injEq] at hmap
      rw [countNonZero_cons, ← ih l hmap.2]
      by_cases hpos : 0 < c.getD 0
      · rw [List.filter_cons_of_pos (by simpa [hmap.1] using hpos)]
        simp only [List.length_cons, hpos, if_true]
        omega
      · rw [List.filter_cons_of_neg (by simpa [hmap.1] using hpos)]
        simp [hpos]

/-! #### The leftover round-robin loop -/

theorem bumpWidth_map_columnIndex (l : List Allocation) (idx : Nat) :
    (bumpWidth l idx).map Allocation.columnIndex = l.map Allocation.columnIndex := by
  simp only [bumpWidth, List.map_map]
  apply List.map_congr_left
  intro a _
  by_cases h : a.columnIndex = idx <;> simp [h]

theorem bumpWidth_map_bytes (l : List Allocation) (idx : Nat) :
    (bumpWidth l idx).map Allocation.bytes = l.map Allocation.bytes := by
  simp only [bumpWidth, List.map_map]
  apply List.map_congr_left
  intro a _
  by_cases h : a.columnIndex = idx <;> simp [h]

theorem bumpWidth_sum_of_not_mem (l : List Allocation) (idx : Nat)
    (h : idx ∉ l.map Allocation.columnIndex) :
    ((bumpWidth l idx).map Allocation.width).sum = (l.map Allocation.width).sum := by
  induction l with
  | nil => simp [bumpWidth]
  | cons a l ih =>
    simp only [List.map_cons, List.mem_cons, not_or] at h
    simp only [bumpWidth, List.map_cons, List.sum_cons] at *
    rw [if_neg (by omega), ih h.2]

theorem bumpWidth_sum (l : List Allocation) (idx : Nat)
    (hnodup : (l.map Allocation.columnIndex).Nodup)
    (hmem : idx ∈ l.map Allocation.columnIndex) :
    ((bumpWidth l idx).map Allocation.width).sum = (l.map Allocation.width).sum + 1 := by
  induction l with
  | nil => simp at hmem
  | cons a l ih =>
    simp only [List.map_cons, List.nodup_cons] at hnodup
    simp only [List.map_cons, List.mem_cons] at hmem
    simp only [bumpWidth, List.map_cons, List.sum_cons] at *
    rcases hmem with hmem | hmem
    · rw [if_pos hmem.symm]
      have hrest : ((bumpWidth l idx).map Allocation.width).sum =
          (l.map Allocation.width).sum := by
        apply bumpWidth_sum_of_not_mem
        rw [hmem]
        exact hnodup.1
      simp only [bumpWidth] at hrest
      rw [hrest]
      ring
    · by_cases hhead : a.columnIndex = idx
      · exact absurd (hhead ▸ hmem) hnodup.1
      · rw [if_neg hhead, ih hnodup.2 hmem]
        ring

theorem roundRobin_sum (ranked : List Nat) (fuel cursor : Nat) (allocs : List Allocation)
    (hne : ranked ≠ [])
    (hnodup : (allocs.map Allocation.columnIndex).Nodup)
    (hsub : ∀ i ∈ ranked, i ∈ allocs.map Allocation.columnIndex) :
    ((roundRobin ranked fuel cursor allocs).map Allocation.width).sum =
      (allocs.map Allocation.width).sum + fuel := by
  induction fuel generalizing cursor allocs with
  | zero => simp [roundRobin]
  | succ fuel ih =>
    rw [roundRobin]
    rw [if_neg (by simpa using hne)]
    have hlen : 0 < ranked.length := List.length_pos.mpr hne
    have hidx : ranked.getD (cursor % ranked.length) 0 ∈ ranked := by
      rw [List.getD_eq_getElem?_getD]
      rw [List.getElem?_eq_getElem (Nat.mod_lt _ hlen)]
      exact List.getElem_mem _
    have hmem := hsub _ hidx
    rw [ih (cursor + 1) (bumpWidth allocs _)
      (by rw [bumpWidth_map_columnIndex]; exact hnodup)
      (by intro i hi; rw [bumpWidth_map_columnIndex]; exact hsub i hi)]
    rw [bumpWidth_sum _ _ hnodup hmem]
    push_cast
    ring

theorem roundRobin_exists_of_mem (ranked : List Nat) (fuel cursor : Nat)
    (allocs : List Allocation) :
    ∀ a ∈ allocs, ∃ a' ∈ roundRobin ranked fuel cursor allocs,
      a'.columnIndex = a.columnIndex ∧ a'.bytes = a.bytes ∧ a.width ≤ a'.width := by
  induction fuel generalizing cursor allocs with
  | zero =>
    intro a ha
    exact ⟨a, by simpa [roundRobin] using ha, rfl, rfl, le_refl _⟩
  | succ fuel ih =>
    intro a ha
    rw [roundRobin]
    by_cases hne : ranked.isEmpty
    · exact ⟨a, by simp [hne, ha], rfl, rfl, le_refl _⟩
    · rw [if_neg hne]
      set idx := ranked.getD (cursor % ranked.length) 0
      set abumped : Allocation :=
        if a.columnIndex = idx then { a with width := a.width + 1 } else a with habdef
      have hb : abumped ∈ bumpWidth allocs idx := by
        rw [bumpWidth]
        exact List.mem_map.mpr ⟨a, ha, rfl⟩
      rcases ih (cursor + 1) (bumpWidth allocs idx) abumped hb with ⟨a', ha', hci, hby, hw⟩
      refine ⟨a', ha', ?_, ?_, ?_⟩
      · rw [hci, habdef]; split <;> rfl
      · rw [hby, habdef]; split <;> rfl
      · have : a.width ≤ abumped.width := by
          rw [habdef]; split <;> simp
        omega

theorem roundRobin_mem_rev (ranked : List Nat) (fuel cursor : Nat)
    (allocs : List Allocation) :
    ∀ a' ∈ roundRobin ranked fuel cursor allocs, ∃ a ∈ allocs,
      a'.columnIndex = a.columnIndex ∧ a'.bytes = a.bytes ∧ a.width ≤ a'.width := by
  induction fuel generalizing cursor allocs with
  | zero =>
    intro a' ha'
    exact ⟨a', by simpa [roundRobin] using ha', rfl, rfl, le_refl _⟩
  | succ fuel ih =>
    intro a' ha'
    rw [roundRobin] at ha'
    by_cases hne : ranked.isEmpty
    · rw [if_pos hne] at ha'
      exact ⟨a', ha', rfl, rfl, le_refl _⟩
    · rw [if_neg hne] at ha'
      set idx := ranked.getD (cursor % ranked.length) 0
      rcases ih (cursor + 1) (bumpWidth allocs idx) a' ha' with ⟨ab, hab, hci, hby, hw⟩
      rw [bumpWidth] at hab
      rcases List.mem_map.mp hab with ⟨a, ha, hfa⟩
      refine ⟨a, ha, ?_, ?_, ?_⟩
      · rw [hci, ← hfa]; split <;> rfl
      · rw [hby, ← hfa]; split <;> rfl
      · have : a.width ≤ ab.width := by
          rw [← hfa]; split <;> simp
        omega

theorem filter_pos_widthSum (l : List Allocation) (h : ∀ a ∈ l, 0 ≤ a.width) :
    ((l.filter fun a => decide (0 < a.width)).map Allocation.width).sum =
      (l.map Allocation.width).sum := by
  induction l with
  | nil => simp
  | cons a l ih =>
    have ha := h a (by simp)
    have hrest : ∀ b ∈ l, 0 ≤ b.width := fun b hb => h b (by simp [hb])
    by_cases hpos : 0 < a.width
    · rw [List.filter_cons_of_pos (by simpa using hpos)]
      simp only [List.map_cons, List.sum_cons, ih hrest]
    · rw [List.filter_cons_of_neg (by simpa using hpos)]
      have : a.width = 0 := by omega
      simp only [List.map_cons, List.sum_cons, ih hrest, this]
      ring

theorem rankedIndexes_length (l : List Allocation) :
    (rankedIndexes l).length = (l.filter fun a => decide (0 < a.bytes)).length := by
  rw [rankedIndexes, List.length_map]
  exact (sortBy_perm allocBefore _).length_eq

theorem rankedIndexes_sub (l : List Allocation) :
    ∀ i ∈ rankedIndexes l, i ∈ l.map Allocation.columnIndex := by
  intro i hi
  rcases List.mem_map.mp hi with ⟨a, ha, hci⟩
  have hmem : a ∈ l.filter fun a => decide (0 < a.bytes) :=
    (sortBy_perm allocBefore _).mem_iff.mp ha
  exact hci ▸ List.mem_map_of_mem Allocation.columnIndex (List.mem_of_mem_filter hmem)

/-- C1 (amended): exact apportionment, assuming the weights do not exceed the
stated total and (when any width is to be handed out) some weight is positive. -/
theorem buildByteSegments_width_sum (chunks : List (Option Int)) (T W : Int)
    (hT : 0 < T) (hW : 0 ≤ W) (hsum : sumPosBytes chunks ≤ T)
    (hnz : W = 0 ∨ 0 < countNonZero chunks) :
    segmentWidthSum (buildByteSegments chunks T W) = W := by
  by_cases hW0 : W = 0
  · subst hW0
    simp [buildByteSegments, segmentWidthSum]
  · have hWpos : 0 < W := by omega
    have hcount : 0 < countNonZero chunks := by
      rcases hnz with h | h
      · exact absurd h hW0
      · exact h
    have hchunks : chunks ≠ [] := by
      intro hnil
      rw [hnil] at hcount
      simp [countNonZero] at hcount
    rw [buildByteSegments, if_neg (by push_neg; exact ⟨by omega, by omega, hchunks⟩)]
    simp only []
    set d := distributedAllocations chunks T W with hd
    set r := W - (d.map Allocation.width).sum with hr
    have hnodup : (d.map Allocation.columnIndex).Nodup := by
      rw [hd, distributed_map_columnIndex]
      exact List.nodup_range' _ _
    have hnonneg := distributed_width_nonneg chunks T W hT
    have hle : (d.map Allocation.width).sum ≤ W := by
      rw [hd]
      exact distributed_widthSum_le chunks T W hT hWpos hsum
    have hrnn : 0 ≤ r := by omega
    have hsumFinal :
        ((if 0 < r then roundRobin (rankedIndexes d) r.toNat 0 d else d).map
            Allocation.width).sum = W := by
      by_cases hrem : 0 < r
      · rw [if_pos hrem]
        have hne : rankedIndexes d ≠ [] := by
          intro hempty
          have := rankedIndexes_length d
          rw [hempty] at this
          rw [hd] at this
          rw [filter_pos_length_eq_countNonZero chunks T W] at this
          simp at this
          omega
        rw [roundRobin_sum _ _ _ _ hne hnodup (rankedIndexes_sub d)]
        have : (r.toNat : Int) = r := Int.toNat_of_nonneg hrnn
        omega
      · rw [if_neg hrem]
        omega
    have hfinNonneg :
        ∀ a ∈ (if 0 < r then roundRobin (rankedIndexes d) r.toNat 0 d else d),
          0 ≤ a.width := by
      intro a ha
      by_cases hrem : 0 < r
      · rw [if_pos hrem] at ha
        rcases roundRobin_mem_rev _ _ _ _ a ha with ⟨a0, ha0, _, _, hw⟩
        have := hnonneg a0 ha0
        omega
      · rw [if_neg hrem] at ha
        exact hnonneg a ha
    rw [segmentWidthSum, List.map_map]
    have hmapw :
        (ByteSegment.width ∘ fun a : Allocation =>
            ({ columnIndex := a.columnIndex, width := a.width, bytes := a.bytes } :
              ByteSegment)) = Allocation.width := by
      funext a; rfl
    rw [hmapw, filter_pos_widthSum _ hfinNonneg, hsumFinal]

/-- C4: when the nonzero weights all fit in the chart width, each of them is
rendered with at least one cell. -/
theorem buildByteSegments_min_one (chunks : List (Option Int)) (T W : Int) (i : Nat)
    (hT : 0 < T) (hb : 0 < (chunks.getD i none).getD 0)
    (hn : (countNonZero chunks : Int) ≤ W) :
    ∃ seg ∈ buildByteSegments chunks T W, seg.columnIndex = i ∧ 1 ≤ seg.width := by
  have hilen : i < chunks.length := by
    by_contra hge
    rw [List.getD_eq_default _ _ (by omega)] at hb
    simp at hb
  have hgetD : chunks.getD i none = chunks[i] := by
    rw [List.getD_eq_getElem?_getD, List.getElem?_eq_getElem hilen]
    rfl
  have hmemc : chunks.getD i none ∈ chunks := by
    rw [hgetD]
    exact List.getElem_mem _
  have hcount : 0 < countNonZero chunks := countNonZero_pos_of_mem hmemc hb
  have hWpos : 0 < W := by
    have : (1 : Int) ≤ (countNonZero chunks : Int) := by exact_mod_cast hcount
    omega
  have hres : shouldReserveMinWidth chunks W = true := by
    rw [shouldReserveMinWidth]
    exact decide_eq_true ⟨hcount, hn⟩
  have hchunks : chunks ≠ [] := List.ne_nil_of_length_pos (by omega)
  rw [buildByteSegments, if_neg (by push_neg; exact ⟨by omega, by omega, hchunks⟩)]
  simp only []
  set d := distributedAllocations chunks T W with hd
  have hdlen : d.length = chunks.length := distributed_length chunks T W
  have hidx : i < d.length := by omega
  have hci : d[i].columnIndex = i := by
    have h1 := distributed_map_columnIndex chunks T W
    have hb1 : i < (d.map Allocation.columnIndex).length := by simpa [List.length_map]
    have hb2 : i < (List.range' 0 chunks.length).length := by simpa [List.length_range']
    have h2 : (d.map Allocation.columnIndex)[i] = (List.range' 0 chunks.length)[i] := by
      simp only [h1]
    rw [List.getElem_map, List.getElem_range'] at h2
    simpa using h2
  have hby : d[i].bytes = (chunks.getD i none).getD 0 := by
    have h1 := distributed_map_bytes chunks T W
    have hb1 : i < (d.map Allocation.bytes).length := by simpa [List.length_map]
    have hb2 : i < (chunks.map (fun c => c.getD 0)).length := by simpa [List.length_map]
    have h2 : (d.map Allocation.bytes)[i] = (chunks.map (fun c => c.getD 0))[i] := by
      simp only [h1]
    rw [List.getElem_map, List.getElem_map] at h2
    rw [hgetD]
    exact h2
  have hwidth : 1 ≤ d[i].width :=
    distributed_width_ge_one chunks T W hT hres d[i] (List.getElem_mem hidx)
      (by rw [hby]; exact hb)
  set r := W - (d.map Allocation.width).sum with hr
  have hfin :
      ∃ a ∈ (if 0 < r then roundRobin (rankedIndexes d) r.toNat 0 d else d),
        a.columnIndex = i ∧ a.bytes = d[i].bytes ∧ 1 ≤ a.width := by
    by_cases hrem : 0 < r
    · rw [if_pos hrem]
      rcases roundRobin_exists_of_mem (rankedIndexes d) r.toNat 0 d d[i]
          (List.getElem_mem hidx) with ⟨a', ha', hcia, hbya, hwa⟩
      exact ⟨a', ha', by rw [hcia, hci], hbya, by omega⟩
    · rw [if_neg hrem]
      exact ⟨d[i], List.getElem_mem hidx, hci, rfl, hwidth⟩
  rcases hfin with ⟨a, ha, hcia, _, hwa⟩
  refine ⟨{ columnIndex := a.columnIndex, width := a.width, bytes := a.bytes }, ?_, hcia, hwa⟩
  apply List.mem_map_of_mem
  rw [List.mem_filter]
  exact ⟨ha, by simpa using (by omega : 0 < a.width)⟩

/-- C1, counterexample: the exactness claim quantifies over every weight list
and every total byte count `> 0`, "including when some or all individual
weights are zero"; but with the all-zero weight list `[0]`, total `1 > 0` and
chart width `1 ≥ 0`, `buildByteSegments` returns no segments, so the allocated
widths sum to `0`, not to the requested chart width `1`. -/
theorem c1_counterexample :
    segmentWidthSum (buildByteSegments [some 0] 1 1) = 0 ∧ (0 : Int) ≠ 1 := by
  constructor
  · decide
  · decide

/-- C1, witness: the amended exactness theorem at the spec §8 scenario
(weights `[10, 5, 0]`, total `15`, chart width `12`). -/
theorem c1_witness :
    segmentWidthSum (buildByteSegments [some 10, some 5, some 0] 15 12) = 12 :=
  buildByteSegments_width_sum [some 10, some 5, some 0] 15 12 (by decide) (by decide)
    (by decide) (Or.inr (by decide))

/-- C4, witness: minimum representation at weights `[10, 5, 0]`, total `15`,
chart width `12`: the nonzero-weight column `1` receives width `≥ 1`. -/
theorem c4_witness :
    ∃ seg ∈ buildByteSegments [some 10, some 5, some 0] 15 12,
      seg.columnIndex = 1 ∧ 1 ≤ seg.width :=
  buildByteSegments_min_one [some 10, some 5, some 0] 15 12 1 (by decide) (by decide)
    (by decide)

/-! ### Grid layout engine (`buildGridLines`, utils.ts)

JavaScript strings are embedded as `List Char` (code units), written `Str`, so
that `slice`, `padEnd`, `repeat` and `length` translate exactly.  A cell value
is embedded as `Option Str`: every value has already been rendered to a string
by `formatCellDetail` (which is the identity on strings), and `null` /
`undefined` / a missing key all render as the empty string. -/

/-- JavaScript string: a list of code units. -/
abbrev Str := List Char

/-- A materialized row: a mapping from column name to cell value
(`none` models a `null`/`undefined` stored value). -/
abbrev GridRow := List (Str × Option Str)

/-- One logical column: display name and type label. -/
structure ColumnInfo where
  name : Str
  type : Str
deriving Repr, DecidableEq

/-- The grid input of `buildGridLines`. -/
structure GridState where
  columns : List ColumnInfo
  rows : List GridRow
deriving Repr, DecidableEq

/-- `DEFAULT_COLUMN_WIDTH` from constants.ts. -/
def DEFAULT_COLUMN_WIDTH : Nat := 6

/-- `row[col.name]`: object-key lookup; a present-but-null value and a missing
key both yield nothing. -/
def getRowValue (row : GridRow) (name : Str) : Option Str :=
  (row.lookup name).join

/-- `formatCellValue` (= `formatCellDetail`): `null`/`undefined` formats to the
empty string; a string value is returned as-is (`String(value)` on a string). -/
def formatCellValue : Option Str → Str
  | none => []
  | some s => s

/-- First pass of `normalizeCell`: `value.replace(/\r?\n/g, "\\n")`. -/
def replaceNewlines : List Char → List Char
  | [] => []
  | '\r' :: '\n' :: rest => '\\' :: 'n' :: replaceNewlines rest
  | '\n' :: rest => '\\' :: 'n' :: replaceNewlines rest
  | c :: rest => c :: replaceNewlines rest

/-- Second pass of `normalizeCell`: `.replace(/\t/g, "\\t")`. -/
def replaceTabs : List Char → List Char
  | [] => []
  | '\t' :: rest => '\\' :: 't' :: replaceTabs rest
  | c :: rest => c :: replaceTabs rest

/-- `normalizeCell` from utils.ts. -/
def normalizeCell (value : Str) : Str :=
  replaceTabs (replaceNewlines value)

/-- `padCell` from utils.ts: truncate over-long cells (with a `...` suffix when
the column is wider than 3) and right-pad short cells with spaces. -/
def padCell (value : Str) (width : Nat) : Str :=
  let normalized := normalizeCell value
  if width < normalized.length then
    if width ≤ 3 then normalized.take width
    else normalized.take (width - 3) ++ ['.', '.', '.']
  else normalized ++ List.replicate (width - normalized.length) ' '

/-- `String(n)` for a row number. -/
def natToStr (n : Nat) : Str := Nat.toDigits 10 n

/-- `buildLine`: pad every value to its column's width (`widths[index] ?? DEFAULT_COLUMN_WIDTH`)
and join with two spaces. -/
def buildLine (values : List Str) (widths : List Nat) : Str :=
  List.intercalate [' ', ' ']
    ((List.enumFrom 0 values).map fun pair => padCell pair.2 (widths.getD pair.1 DEFAULT_COLUMN_WIDTH))

/-- `buildSeparator` from utils.ts returns the empty string. -/
def buildSeparator (_widths : List Nat) : Str := []

/-- A half-open-by-inclusive-bounds character range of one data column
(`end` is a reserved word in Lean, so the field is `stop`). -/
structure ColumnRange where
  start : Nat
  stop : Nat
deriving Repr, DecidableEq

/-- The `i > 0` iterations of the `buildColumnRanges` loop: each data column
occupies `[cursor, cursor + width - 1]` and the cursor then skips the column
plus the two-space separator (the missing skip after the last column does not
affect any emitted range). -/
def rangesAux : List Nat → Nat → List ColumnRange
  | [], _ => []
  | w :: rest, cursor => ⟨cursor, cursor + w - 1⟩ :: rangesAux rest (cursor + w + 2)

/-- `buildColumnRanges` from utils.ts: ranges for the data columns (the leading
row-number pseudo-column at index 0 only advances the cursor), plus the scroll
stops (0 followed by each range's start). -/
def buildColumnRanges (widths : List Nat) : List ColumnRange × List Nat :=
  match widths with
  | [] => ([], [0])
  | w0 :: rest =>
    let ranges := rangesAux rest (w0 + 2)
    (ranges, 0 :: ranges.map ColumnRange.start)

/-- The derived text grid returned by `buildGridLines`. -/
structure GridLines where
  headerNameLine : Str
  headerTypeLine : Str
  separatorLine : Str
  rowLines : List Str
  maxLineLength : Nat
  columnRanges : List ColumnRange
  scrollStops : List Nat
deriving Repr, DecidableEq

/-- The `(loading)` placeholder column used when the grid has no columns yet. -/
def loadingColumn : ColumnInfo :=
  { name := ['(', 'l', 'o', 'a', 'd', 'i', 'n', 'g', ')'], type := [] }

/-- The effective column list of `buildGridLines`. -/
def effectiveColumns (grid : GridState) : List ColumnInfo :=
  if grid.columns.isEmpty then [loadingColumn] else grid.columns

/-- The row-number pseudo-column width: digits of the largest absolute row
number in the window, with a floor of 3. -/
def rowNumberWidthOf (grid : GridState) (offset : Nat) : Nat :=
  max (natToStr (offset + grid.rows.length)).length 3

/-- The per-column widths: the longest of header name, type label and every
formatted cell, clamped to `[DEFAULT_COLUMN_WIDTH, 40]`. -/
def columnWidthsOf (grid : GridState) : List Nat :=
  (effectiveColumns grid).map fun col =>
    let longestCell := grid.rows.foldl
      (fun m row => max m (formatCellValue (getRowValue row col.name)).length)
      (max col.name.length col.type.length)
    min (max longestCell DEFAULT_COLUMN_WIDTH) 40

/-- `headerWidths[headerWidths.length - 1] += targetWidth - baseLength`. -/
def addToLast (l : List Nat) (d : Nat) : List Nat :=
  match l with
  | [] => []
  | [w] => [w + d]
  | w :: rest => w :: addToLast rest d

/-- The final header-widths vector: row-number width, column widths, and the
slack `targetWidth - baseLength` greedily added to the last column. -/
def headerWidthsOf (grid : GridState) (offset targetWidth : Nat) : List Nat :=
  let headerWidths := rowNumberWidthOf grid offset :: columnWidthsOf grid
  let separatorWidth := if 1 < headerWidths.length then (headerWidths.length - 1) * 2 else 0
  let baseLength := headerWidths.sum + separatorWidth
  if baseLength < targetWidth ∧ 1 < headerWidths.length then
    addToLast headerWidths (targetWidth - baseLength)
  else headerWidths

/-- `buildGridLines(grid, offset, targetWidth)` from utils.ts. -/
def buildGridLines (grid : GridState) (offset targetWidth : Nat) : GridLines :=
  let columns := effectiveColumns grid
  let headerWidths := headerWidthsOf grid offset targetWidth
  let headerNames := ['#'] :: columns.map ColumnInfo.name
  let headerTypes := [] :: columns.map ColumnInfo.type
  let headerNameLine := buildLine headerNames headerWidths
  let headerTypeLine := buildLine headerTypes headerWidths
  let separatorLine := buildSeparator headerWidths
  let rowLines := (List.enumFrom 0 grid.rows).map fun pair =>
    let rowIndex := natToStr (offset + pair.1 + 1)
    buildLine (rowIndex :: columns.map fun col => formatCellValue (getRowValue pair.2 col.name))
      headerWidths
  let ranges := buildColumnRanges headerWidths
  let maxLineLength :=
    ([headerNameLine.length, headerTypeLine.length, separatorLine.length] ++
        rowLines.map List.length).foldl max 0
  { headerNameLine := headerNameLine
    headerTypeLine := headerTypeLine
    separatorLine := separatorLine
    rowLines := rowLines
    maxLineLength := maxLineLength
    columnRanges := ranges.1
    scrollStops := ranges.2 }

/-! #### Fixed line lengths -/

theorem padCell_length (value : Str) (width : Nat) : (padCell value width).length = width := by
  rw [padCell]
  set normalized := normalizeCell value
  by_cases hlong : width < normalized.length
  · rw [if_pos hlong]
    by_cases hsmall : width ≤ 3
    · rw [if_pos hsmall, List.length_take]
      omega
    · rw [if_neg hsmall, List.length_append, List.length_take]
      simp only [List.length_cons, List.length_nil]
      omega
  · rw [if_neg hlong, List.length_append, List.length_replicate]
    omega

theorem intercalate_length (sep : Str) (l : List Str) (hne : l ≠ []) :
    (List.intercalate sep l).length = (l.map List.length).sum + sep.length * (l.length - 1) := by
  induction l with
  | nil => cases hne rfl
  | cons a l ih =>
    cases l with
    | nil => simp [List.intercalate]
    | cons b t =>
      have hstep : List.intercalate sep (a :: b :: t) =
          a ++ sep ++ List.intercalate sep (b :: t) := by
        simp [List.intercalate]
      rw [hstep, List.length_append, List.length_append, ih (by simp)]
      simp only [List.map_cons, List.sum_cons, List.length_cons]
      have h1 : t.length + 1 + 1 - 1 = t.length + 1 := by omega
      have h2 : t.length + 1 - 1 = t.length := by omega
      rw [h1, h2, Nat.mul_succ]
      omega

theorem enumFrom_map_getD (f : Str → Nat → Str) (d : Nat) :
    ∀ (values : List Str) (widths : List Nat) (s : Nat), values.length = widths.length →
      ((List.enumFrom s values).map fun p => f p.2 (widths.getD (p.1 - s) d)) =
        List.zipWith (fun v w => f v w) values widths := by
  intro values
  induction values with
  | nil =>
    intro widths s h
    cases widths with
    | nil => simp
    | cons w ws => simp at h
  | cons v vs ih =>
    intro widths s h
    cases widths with
    | nil => simp at h
    | cons w ws =>
      simp only [List.enumFrom_cons, List.map_cons, List.zipWith_cons_cons]
      rw [Nat.sub_self, List.getD_cons_zero]
      congr 1
      rw [← ih ws (s + 1) (by simpa using h)]
      apply List.map_congr_left
      intro p hp
      have hle : s + 1 ≤ p.1 := by
        rcases p with ⟨i, x⟩
        exact (List.mem_enumFrom hp).1
      have hsub : p.1 - s = (p.1 - (s + 1)) + 1 := by omega
      rw [hsub, List.getD_cons_succ]

theorem buildLine_eq_zipWith (values : List Str) (widths : List Nat)
    (h : values.length = widths.length) :
    buildLine values widths = List.intercalate [' ', ' '] (List.zipWith padCell values widths) := by
  rw [buildLine]
  congr 1
  have := enumFrom_map_getD (fun v w => padCell v w) DEFAULT_COLUMN_WIDTH values widths 0 h
  simp only [Nat.sub_zero] at this
  exact this

theorem zipWith_padCell_lengths (values : List Str) (widths : List Nat)
    (h : values.length = widths.length) :
    (List.zipWith padCell values widths).map List.length = widths := by
  induction values generalizing widths with
  | nil =>
    cases widths with
    | nil => simp
    | cons w ws => simp at h
  | cons v vs ih =>
    cases widths with
    | nil => simp at h
    | cons w ws =>
      simp only [List.zipWith_cons_cons, List.map_cons, padCell_length]
      rw [ih ws (by simpa using h)]

theorem buildLine_length (values : List Str) (widths : List Nat)
    (h : values.length = widths.length) (hne : widths ≠ []) :
    (buildLine values widths).length = widths.sum + 2 * (widths.length - 1) := by
  have hvne : values ≠ [] := by
    intro hv
    rw [hv] at h
    cases widths with
    | nil => exact hne rfl
    | cons w ws => simp at h
  have hwpos : 0 < widths.length := List.length_pos.mpr hne
  rw [buildLine_eq_zipWith values widths h,
    intercalate_length _ _ (by
      intro hz
      have hlen : (List.zipWith padCell values widths).length = 0 := by
        rw [hz]; rfl
      rw [List.length_zipWith, h, min_self] at hlen
      omega),
    zipWith_padCell_lengths values widths h, List.length_zipWith]
  simp only [List.length_cons, List.length_nil, h, min_self]

theorem addToLast_length (l : List Nat) (d : Nat) : (addToLast l d).length = l.length := by
  induction l with
  | nil => rfl
  | cons a l ih =>
    cases l with
    | nil => rfl
    | cons b t => simpa [addToLast] using ih

theorem addToLast_cons_cons (a b : Nat) (t : List Nat) (d : Nat) :
    addToLast (a :: b :: t) d = a :: addToLast (b :: t) d := rfl

theorem addToLast_mem_ge (l : List Nat) (d : Nat) :
    ∀ w' ∈ addToLast l d, ∃ w ∈ l, w ≤ w' := by
  induction l with
  | nil => intro w' h; cases h
  | cons a l ih =>
    cases l with
    | nil =>
      intro w' h
      rcases List.mem_singleton.mp h with rfl
      exact ⟨a, by simp, by omega⟩
    | cons b t =>
      intro w' h
      rw [addToLast_cons_cons] at h
      rcases List.mem_cons.mp h with rfl | h
      · exact ⟨w', by simp, le_refl _⟩
      · rcases ih w' h with ⟨w, hw, hle⟩
        exact ⟨w, by simp [hw], hle⟩

theorem headerWidthsOf_shape (grid : GridState) (offset targetWidth : Nat) :
    ∃ rest, headerWidthsOf grid offset targetWidth = rowNumberWidthOf grid offset :: rest ∧
      rest.length = (effectiveColumns grid).length ∧
      ∀ w ∈ rest, DEFAULT_COLUMN_WIDTH ≤ w := by
  have hcols : columnWidthsOf grid ≠ [] := by
    rw [columnWidthsOf]
    simp only [ne_eq, List.map_eq_nil_iff]
    rw [effectiveColumns]
    split
    · simp
    · next hfull => simpa [List.isEmpty_iff] using hfull
  have hcolwidth : ∀ w ∈ columnWidthsOf grid, DEFAULT_COLUMN_WIDTH ≤ w := by
    intro w hw
    rw [columnWidthsOf] at hw
    rcases List.mem_map.mp hw with ⟨col, _, hcol⟩
    rw [← hcol]
    simp only [DEFAULT_COLUMN_WIDTH]
    omega
  have hclen : (columnWidthsOf grid).length = (effectiveColumns grid).length := by
    rw [columnWidthsOf, List.length_map]
  rw [headerWidthsOf]
  split
  · next hlen =>
    split
    · next hcond =>
      cases hcw : columnWidthsOf grid with
      | nil => exact absurd hcw hcols
      | cons w ws =>
        rw [addToLast_cons_cons]
        refine ⟨addToLast (w :: ws) _, rfl, ?_, ?_⟩
        · rw [addToLast_length, ← hcw, hclen]
        · intro w' hw'
          rcases addToLast_mem_ge _ _ w' hw' with ⟨w0, hw0, hle⟩
          exact le_trans (hcolwidth w0 (hcw ▸ hw0)) hle
    · exact ⟨columnWidthsOf grid, rfl, hclen, hcolwidth⟩
  · next hlen =>
    rw [if_neg (fun hc => hlen hc.2)]
    exact ⟨columnWidthsOf grid, rfl, hclen, hcolwidth⟩

theorem foldl_max_acc (l : List Nat) (a : Nat) : l.foldl max a = max a (l.foldl max 0) := by
  induction l generalizing a with
  | nil => simp
  | cons x l ih =>
    simp only [List.foldl_cons]
    rw [ih (max a x), ih (max 0 x)]
    omega

theorem foldl_max_le (l : List Nat) (L : Nat) (hall : ∀ x ∈ l, x ≤ L) :
    l.foldl max 0 ≤ L := by
  induction l with
  | nil => simp
  | cons x l ih =>
    simp only [List.foldl_cons]
    rw [foldl_max_acc]
    have hx := hall x (by simp)
    have ht := ih (fun z hz => hall z (by simp [hz]))
    omega

theorem foldl_max_eq (l : List Nat) (L : Nat) (hall : ∀ x ∈ l, x ≤ L) (hmem : L ∈ l) :
    l.foldl max 0 = L := by
  induction l with
  | nil => cases hmem
  | cons x l ih =>
    simp only [List.foldl_cons]
    rw [foldl_max_acc]
    rcases List.mem_cons.mp hmem with rfl | hmem
    · have hrest := foldl_max_le l L (fun z hz => hall z (by simp [hz]))
      omega
    · have hx := hall x (by simp)
      rw [ih (fun z hz => hall z (by simp [hz])) hmem]
      omega

theorem buildGridLines_headerNameLine (grid : GridState) (offset targetWidth : Nat) :
    (buildGridLines grid offset targetWidth).headerNameLine =
      buildLine (['#'] :: (effectiveColumns grid).map ColumnInfo.name)
        (headerWidthsOf grid offset targetWidth) := rfl

theorem buildGridLines_headerTypeLine (grid : GridState) (offset targetWidth : Nat) :
    (buildGridLines grid offset targetWidth).headerTypeLine =
      buildLine ([] :: (effectiveColumns grid).map ColumnInfo.type)
        (headerWidthsOf grid offset targetWidth) := rfl

theorem buildGridLines_separatorLine (grid : GridState) (offset targetWidth : Nat) :
    (buildGridLines grid offset targetWidth).separatorLine = [] := rfl

theorem buildGridLines_rowLines (grid : GridState) (offset targetWidth : Nat) :
    (buildGridLines grid offset targetWidth).rowLines =
      (List.enumFrom 0 grid.rows).map fun pair =>
        buildLine
          (natToStr (offset + pair.1 + 1) ::
            (effectiveColumns grid).map fun col => formatCellValue (getRowValue pair.2 col.name))
          (headerWidthsOf grid offset targetWidth) := rfl

theorem buildGridLines_maxLineLength (grid : GridState) (offset targetWidth : Nat) :
    (buildGridLines grid offset targetWidth).maxLineLength =
      ([(buildGridLines grid offset targetWidth).headerNameLine.length,
          (buildGridLines grid offset targetWidth).headerTypeLine.length,
          (buildGridLines grid offset targetWidth).separatorLine.length] ++
        (buildGridLines grid offset targetWidth).rowLines.map List.length).foldl max 0 := rfl

theorem buildGridLines_columnRanges (grid : GridState) (offset targetWidth : Nat) :
    (buildGridLines grid offset targetWidth).columnRanges =
      (buildColumnRanges (headerWidthsOf grid offset targetWidth)).1 := rfl

/-- Every header and row line has length `headerWidths.sum + 2 * (headerWidths.length - 1)`. -/
theorem gridLines_all_lengths (grid : GridState) (offset targetWidth : Nat) :
    (buildGridLines grid offset targetWidth).headerNameLine.length =
        (headerWidthsOf grid offset targetWidth).sum +
          2 * ((headerWidthsOf grid offset targetWidth).length - 1) ∧
      (buildGridLines grid offset targetWidth).headerTypeLine.length =
        (headerWidthsOf grid offset targetWidth).sum +
          2 * ((headerWidthsOf grid offset targetWidth).length - 1) ∧
      ∀ line ∈ (buildGridLines grid offset targetWidth).rowLines,
        line.length =
          (headerWidthsOf grid offset targetWidth).sum +
            2 * ((headerWidthsOf grid offset targetWidth).length - 1) := by
  obtain ⟨rest, hhw, hrl, hrge⟩ := headerWidthsOf_shape grid offset targetWidth
  have hwne : headerWidthsOf grid offset targetWidth ≠ [] := by rw [hhw]; simp
  have hwlen : (headerWidthsOf grid offset targetWidth).length =
      (effectiveColumns grid).length + 1 := by
    rw [hhw]
    simp [hrl]
  refine ⟨?_, ?_, ?_⟩
  · rw [buildGridLines_headerNameLine]
    exact buildLine_length _ _ (by simp [hwlen]) hwne
  · rw [buildGridLines_headerTypeLine]
    exact buildLine_length _ _ (by simp [hwlen]) hwne
  · intro line hline
    rw [buildGridLines_rowLines] at hline
    rcases List.mem_map.mp hline with ⟨pair, _, hp⟩
    rw [← hp]
    exact buildLine_length _ _ (by simp [hwlen]) hwne

/-- `maxLineLength` equals the common line length. -/
theorem maxLineLength_eq (grid : GridState) (offset targetWidth : Nat) :
    (buildGridLines grid offset targetWidth).maxLineLength =
      (headerWidthsOf grid offset targetWidth).sum +
        2 * ((headerWidthsOf grid offset targetWidth).length - 1) := by
  obtain ⟨hname, htype, hrows⟩ := gridLines_all_lengths grid offset targetWidth
  rw [buildGridLines_maxLineLength, buildGridLines_separatorLine]
  apply foldl_max_eq
  · intro x hx
    simp only [List.cons_append, List.nil_append, List.mem_cons] at hx
    rcases hx with rfl | rfl | rfl | hx
    · omega
    · omega
    · simp
    · rcases List.mem_map.mp hx with ⟨line, hline, hlen⟩
      rw [← hlen, hrows line hline]
  · simp only [List.cons_append, List.nil_append, List.mem_cons]
    left
    exact hname.symm

/-- C10: for every input grid, row offset and target width, the header name
line, the header type line and each row line produced by `buildGridLines` all
have exactly the same length, equal to `maxLineLength` (every cell, including
the row-number cell, is padded or truncated to exactly its column's width). -/
theorem c10_line_lengths (grid : GridState) (offset targetWidth : Nat) :
    (buildGridLines grid offset targetWidth).headerNameLine.length =
        (buildGridLines grid offset targetWidth).maxLineLength ∧
      (buildGridLines grid offset targetWidth).headerTypeLine.length =
        (buildGridLines grid offset targetWidth).maxLineLength ∧
      ∀ line ∈ (buildGridLines grid offset targetWidth).rowLines,
        line.length = (buildGridLines grid offset targetWidth).maxLineLength := by
  obtain ⟨hname, htype, hrows⟩ := gridLines_all_lengths grid offset targetWidth
  have hmax := maxLineLength_eq grid offset targetWidth
  exact ⟨by rw [hname, hmax], by rw [htype, hmax],
    fun line hline => by rw [hrows line hline, hmax]⟩

/-- C10, witness: the fixed-length property evaluated on a one-column,
one-row grid. -/
theorem c10_witness :
    (buildGridLines ⟨[⟨['a','b','c','d','e','f'], []⟩], [[(['a','b','c','d','e','f'],
          some ['x'])]]⟩ 0 20).headerNameLine.length =
        (buildGridLines ⟨[⟨['a','b','c','d','e','f'], []⟩], [[(['a','b','c','d','e','f'],
          some ['x'])]]⟩ 0 20).maxLineLength ∧
      ((['1',' ',' ',' ',' ','x'] ++ List.replicate 14 ' ' : Str)).length =
        (buildGridLines ⟨[⟨['a','b','c','d','e','f'], []⟩], [[(['a','b','c','d','e','f'],
          some ['x'])]]⟩ 0 20).maxLineLength := by
  constructor
  · exact (c10_line_lengths ⟨[⟨['a','b','c','d','e','f'], []⟩],
      [[(['a','b','c','d','e','f'], some ['x'])]]⟩ 0 20).1
  · exact (c10_line_lengths ⟨[⟨['a','b','c','d','e','f'], []⟩],
      [[(['a','b','c','d','e','f'], some ['x'])]]⟩ 0 20).2.2 _ (by decide)

/-! #### Column ranges -/

theorem rangesAux_length (ws : List Nat) (c : Nat) : (rangesAux ws c).length = ws.length := by
  induction ws generalizing c with
  | nil => rfl
  | cons w rest ih => simp [rangesAux, ih]

theorem rangesAux_start_ge (ws : List Nat) (c : Nat) :
    ∀ r ∈ rangesAux ws c, c ≤ r.start := by
  induction ws generalizing c with
  | nil => intro r hr; cases hr
  | cons w rest ih =>
    intro r hr
    rcases List.mem_cons.mp hr with rfl | hr
    · exact le_refl _
    · have := ih (c + w + 2) r hr
      omega

theorem rangesAux_pairwise (ws : List Nat) (c : Nat) :
    List.Pairwise (fun a b => a.stop < b.start) (rangesAux ws c) := by
  induction ws generalizing c with
  | nil => exact List.Pairwise.nil
  | cons w rest ih =>
    rw [rangesAux]
    refine List.pairwise_cons.mpr ⟨?_, ih (c + w + 2)⟩
    intro r hr
    have := rangesAux_start_ge rest (c + w + 2) r hr
    simp only []
    omega

theorem rangesAux_sum (ws : List Nat) (c : Nat) (hw : ∀ w ∈ ws, 1 ≤ w) :
    ((rangesAux ws c).map fun r => r.stop + 1 - r.start).sum = ws.sum := by
  induction ws generalizing c with
  | nil => rfl
  | cons w rest ih =>
    have h1 := hw w (by simp)
    simp only [rangesAux, List.map_cons, List.sum_cons,
      ih (c + w + 2) (fun x hx => hw x (by simp [hx]))]
    omega

theorem rangesAux_start_le_stop (ws : List Nat) (c : Nat) (hw : ∀ w ∈ ws, 1 ≤ w) :
    ∀ r ∈ rangesAux ws c, r.start ≤ r.stop := by
  induction ws generalizing c with
  | nil => intro r hr; cases hr
  | cons w rest ih =>
    intro r hr
    rcases List.mem_cons.mp hr with rfl | hr
    · have h1 := hw w (by simp)
      simp only []
      omega
    · exact ih (c + w + 2) (fun x hx => hw x (by simp [hx])) r hr

theorem rangesAux_stop_bound (ws : List Nat) (c : Nat) (hw : ∀ w ∈ ws, 1 ≤ w) :
    ∀ r ∈ rangesAux ws c, r.stop + 1 ≤ c + ws.sum + 2 * (ws.length - 1) := by
  induction ws generalizing c with
  | nil => intro r hr; cases hr
  | cons w rest ih =>
    intro r hr
    rcases List.mem_cons.mp hr with rfl | hr
    · have h1 := hw w (by simp)
      simp only [List.sum_cons, List.length_cons]
      omega
    · have hrest_ne : rest ≠ [] := by
        intro hnil
        rw [hnil] at hr
        cases hr
      have hk : 1 ≤ rest.length := by
        cases rest with
        | nil => exact absurd rfl hrest_ne
        | cons a t => simp
      have := ih (c + w + 2) (fun x hx => hw x (by simp [hx])) r hr
      simp only [List.sum_cons, List.length_cons]
      omega

/-- A grid with one column named `abcdef` and no rows, used as the concrete
layout counterexample/witness input. -/
def sampleGrid : GridState :=
  { columns := [{ name := ['a','b','c','d','e','f'], type := [] }], rows := [] }

/-- C5, counterexample: the column ranges do NOT partition `[0, maxLineLength)`
and their union's length is NOT `maxLineLength - rowNumberWidth`: with one
column `abcdef` and no rows, the single range is `[5, 10]`, `maxLineLength` is
`11` and the row-number width is `3`, so the union has length `6 ≠ 11 - 3 = 8`
and the separator positions (e.g. character `3`) are covered by no range. -/
theorem c5_counterexample :
    (buildGridLines sampleGrid 0 0).columnRanges = [⟨5, 10⟩] ∧
      (buildGridLines sampleGrid 0 0).maxLineLength = 11 ∧
      rowNumberWidthOf sampleGrid 0 = 3 ∧
      (((buildGridLines sampleGrid 0 0).columnRanges.map fun r =>
          r.stop + 1 - r.start).sum = 6) ∧
      (6 : Nat) ≠ 11 - 3 ∧
      ¬ ∃ r ∈ (buildGridLines sampleGrid 0 0).columnRanges, r.start ≤ 3 ∧ 3 ≤ r.stop := by
  refine ⟨by decide, by decide, by decide, by decide, by decide, by decide⟩

/-- C5 (amended): the column-range table is sorted and non-overlapping with one
range per data column; each range lies inside `[0, maxLineLength)`; and the
union's total length equals `maxLineLength` minus the row-number pseudo-column
width minus the two-character separator per data column (the two-space gaps
between columns belong to no range). -/
theorem c5_column_ranges (grid : GridState) (offset targetWidth : Nat) :
    (buildGridLines grid offset targetWidth).columnRanges.length =
        (effectiveColumns grid).length ∧
      List.Pairwise (fun a b => a.stop < b.start)
        (buildGridLines grid offset targetWidth).columnRanges ∧
      (∀ r ∈ (buildGridLines grid offset targetWidth).columnRanges,
        r.start ≤ r.stop ∧ r.stop < (buildGridLines grid offset targetWidth).maxLineLength) ∧
      ((buildGridLines grid offset targetWidth).columnRanges.map fun r =>
          r.stop + 1 - r.start).sum =
        (buildGridLines grid offset targetWidth).maxLineLength -
          rowNumberWidthOf grid offset - 2 * (effectiveColumns grid).length := by
  obtain ⟨rest, hhw, hrl, hrge⟩ := headerWidthsOf_shape grid offset targetWidth
  have hrest1 : ∀ w ∈ rest, 1 ≤ w := by
    intro w hw
    have := hrge w hw
    simp only [DEFAULT_COLUMN_WIDTH] at this
    omega
  have hranges : (buildGridLines grid offset targetWidth).columnRanges =
      rangesAux rest (rowNumberWidthOf grid offset + 2) := by
    rw [buildGridLines_columnRanges, hhw, buildColumnRanges]
  have hmax : (buildGridLines grid offset targetWidth).maxLineLength =
      rowNumberWidthOf grid offset + rest.sum + 2 * rest.length := by
    rw [maxLineLength_eq, hhw]
    simp only [List.sum_cons, List.length_cons]
    omega
  refine ⟨?_, ?_, ?_, ?_⟩
  · rw [hranges, rangesAux_length, hrl]
  · rw [hranges]
    exact rangesAux_pairwise rest _
  · intro r hr
    rw [hranges] at hr
    refine ⟨rangesAux_start_le_stop rest _ hrest1 r hr, ?_⟩
    have hbound := rangesAux_stop_bound rest _ hrest1 r hr
    have hne : rest ≠ [] := by
      intro hnil
      rw [hnil] at hr
      cases hr
    have hk : 1 ≤ rest.length := by
      cases rest with
      | nil => exact absurd rfl hne
      | cons a t => simp
    rw [hmax]
    omega
  · rw [hranges, rangesAux_sum rest _ hrest1, hmax, hrl]
    omega

/-- C5, witness: the amended column-range theorem evaluated at the one-column
sample grid: one range, union length `6 = 11 - 3 - 2`, and the range `[5, 10]`
lies inside `[0, 11)`. -/
theorem c5_witness :
    (buildGridLines sampleGrid 0 0).columnRanges.length =
        (effectiveColumns sampleGrid).length ∧
      (((buildGridLines sampleGrid 0 0).columnRanges.map fun r =>
          r.stop + 1 - r.start).sum =
        (buildGridLines sampleGrid 0 0).maxLineLength -
          rowNumberWidthOf sampleGrid 0 - 2 * (effectiveColumns sampleGrid).length) ∧
      ((⟨5, 10⟩ : ColumnRange).start ≤ (⟨5, 10⟩ : ColumnRange).stop ∧
        (⟨5, 10⟩ : ColumnRange).stop < (buildGridLines sampleGrid 0 0).maxLineLength) := by
  have h := c5_column_ranges sampleGrid 0 0
  exact ⟨h.1, h.2.2.2, h.2.2.1 ⟨5, 10⟩ (by decide)⟩

/-! ### Row-window cache (`App` load-window effect, layout-viewer.tsx)

The effect body is embedded as explicit state transitions.  Its `canceled`
closure flag is set exactly when a newer effect run has started, so a fetch is
applied iff its run is still the latest; we model this with a generation
counter captured at issue time and compared at resolution time (the spec's own
suggested embedding of the effect-cleanup protocol).  Rows are an arbitrary
type parameter (their content never matters to the cache). -/

/-- The cache/render state held by the `App` component. -/
structure WindowState (Row : Type) where
  offset : Nat
  windowStart : Nat
  windowRows : List Row
  knownTotalRows : Option Nat
  error : Option String
  loading : Bool
  currentGen : Nat
deriving Repr, DecidableEq

/-- `windowSize = Math.max(50, pageSize * 3)`. -/
def windowSizeOf (pageSize : Nat) : Nat := max 50 (pageSize * 3)

/-- The `withinWindow` test of the load effect. -/
def withinWindow (s : WindowState Row) (pendingOffset pageSize : Nat) : Prop :=
  0 < s.windowRows.length ∧ s.windowStart ≤ pendingOffset ∧
    pendingOffset + pageSize ≤ s.windowStart + s.windowRows.length

instance (s : WindowState Row) (pendingOffset pageSize : Nat) :
    Decidable (withinWindow s pendingOffset pageSize) := by
  rw [withinWindow]; infer_instance

/-- The cache satisfaction invariant of spec §3. -/
def satisfied (s : WindowState Row) (pageSize : Nat) : Prop :=
  s.windowStart ≤ s.offset ∧ s.offset + pageSize ≤ s.windowStart + s.windowRows.length

instance (s : WindowState Row) (pageSize : Nat) : Decidable (satisfied s pageSize) := by
  rw [satisfied]; infer_instance

/-- The start/limit of one fetch request. -/
structure FetchPlan where
  start : Nat
  limit : Nat
deriving Repr, DecidableEq

/-- `options.maxRows ?? knownTotalRows`. -/
def effectiveMaxRows (optionsMaxRows : Option Nat) (s : WindowState Row) : Option Nat :=
  optionsMaxRows <|> s.knownTotalRows

/-- The fetch parameters computed by `loadWindow`:
`start = Math.max(0, targetOffset - pageSize)` (truncated subtraction),
`remaining = Math.max(0, maxRows - start)`, and
`limit = remaining === undefined ? windowSize : Math.min(windowSize, remaining)`. -/
def planFetch (pendingOffset pageSize : Nat) (maxRows : Option Nat) : FetchPlan :=
  let windowSize := windowSizeOf pageSize
  let start := pendingOffset - pageSize
  let limit :=
    match maxRows with
    | none => windowSize
    | some m => min windowSize (m - start)
  { start := start, limit := limit }

theorem planFetch_start (pendingOffset pageSize : Nat) (maxRows : Option Nat) :
    (planFetch pendingOffset pageSize maxRows).start = pendingOffset - pageSize := rfl

/-- The synchronous start of a `loadWindow` run: a new generation supersedes
any in-flight fetch (its `canceled` flag is now set), `setLoading(true)`,
`setError(null)`. Returns the new state and the generation the run captured. -/
def issueFetch (s : WindowState Row) : WindowState Row × Nat :=
  ({ s with loading := true, error := none, currentGen := s.currentGen + 1 },
    s.currentGen + 1)

/-- Resolution of a successful `source.readTable` call issued at generation
`gen` with plan `plan` for target offset `pendingOffset`: if no newer run has
started (`!canceled`), install the fetched window, move `offset` to the target,
and detect end-of-data (`rowsPage.length < limit` with no explicit cap and no
prior estimate); a superseded resolution changes nothing. -/
def applyFetchSuccess (optionsMaxRows : Option Nat) (pendingOffset : Nat) (plan : FetchPlan)
    (gen : Nat) (rowsPage : List Row) (s : WindowState Row) : WindowState Row :=
  if gen = s.currentGen then
    { s with
      windowStart := plan.start
      windowRows := rowsPage
      offset := pendingOffset
      knownTotalRows :=
        if rowsPage.length < plan.limit ∧ optionsMaxRows = none ∧ s.knownTotalRows = none
        then some (plan.start + rowsPage.length)
        else s.knownTotalRows
      loading := false }
  else s

/-- Resolution of a failed fetch issued at generation `gen`: record the error
message (the window and offset are left as they were); a superseded resolution
changes nothing. -/
def applyFetchError (gen : Nat) (message : String) (s : WindowState Row) : WindowState Row :=
  if gen = s.currentGen then { s with error := some message, loading := false } else s

/-- The `visibleRows` memo: the page-sized slice of the cached window at the
current offset (`windowRows.slice(startIndex, startIndex + pageSize)`), or `[]`
when the offset falls outside the window. -/
def visibleRows (s : WindowState Row) (pageSize : Nat) : List Row :=
  if s.windowRows.length = 0 then []
  else if s.offset < s.windowStart then []
  else
    let startIndex := s.offset - s.windowStart
    if s.windowRows.length ≤ startIndex then []
    else (s.windowRows.drop startIndex).take pageSize

/-- The `TableViewer` error effect: a present error forces the detail sidebar
open. -/
def sidebarAfterError (sidebarOpen : Bool) (error : Option String) : Bool :=
  if error.isSome then true else sidebarOpen

/-- `buildErrorDetail` from utils.ts. -/
def buildErrorDetail (message : String) : String :=
  "error\n\n" ++ message

/-- `const detail = error ? buildErrorDetail(error) : buildDetail(...)`. -/
def detailFor (error : Option String) (fallback : String) : String :=
  match error with
  | some e => buildErrorDetail e
  | none => fallback

/-- `metadata.rowCount`: a JS `number` or `bigint`. -/
inductive RowCountValue where
  | numV (value : Int)
  | bigV (value : Int)
deriving Repr, DecidableEq

/-- `Number.MAX_SAFE_INTEGER`. -/
def MAX_SAFE_INTEGER : Int := 2 ^ 53 - 1

/-- `normalizeRowCount`: a (finite) JS number passes through; a bigint is
accepted only when it fits in a safe integer.  (Non-finite numbers do not
arise in the `Int` model.) -/
def normalizeRowCount : Option RowCountValue → Option Int
  | none => none
  | some (.numV v) => some v
  | some (.bigV v) => if v ≤ MAX_SAFE_INTEGER then some v else none

/-- `resolveInitialTotal` from utils.ts: an explicit metadata row count (when
normalizable) takes precedence; otherwise a short initial read
(`rows.length < initialLimit`) pins the total at the returned row count, else
the total stays unknown. -/
def resolveInitialTotal (metadataRowCount : Option RowCountValue)
    (rowsLen initialLimit : Nat) : Option Int :=
  match normalizeRowCount metadataRowCount with
  | some rowCount => some rowCount
  | none => if rowsLen < initialLimit then some (rowsLen : Int) else none

/-- An initial state with an empty cache (used by concrete scenarios). -/
def emptyCacheState : WindowState Nat :=
  { offset := 0, windowStart := 0, windowRows := [], knownTotalRows := none,
    error := none, loading := false, currentGen := 0 }

/-- C2, counterexample: a successful fetch that hits end-of-data leaves the
satisfaction invariant false.  From an empty cache with unknown total, a move
to offset 50 with page size 20 fetches `start = 30, limit = 60`; the source has
only 10 rows so 0 rows come back, and afterwards
`offset + pageSize = 70 > windowStart + rows.length = 30`. -/
theorem c2_counterexample :
    ¬ satisfied
        (applyFetchSuccess none 50
          (planFetch 50 20 (effectiveMaxRows none (issueFetch emptyCacheState).1))
          (issueFetch emptyCacheState).2 [] (issueFetch emptyCacheState).1)
        20 := by decide

/-- C2 (amended): after a successful un-superseded fetch that returns the full
requested limit, and whose target viewport does not extend past the effective
total when one is known, the cache satisfaction invariant
`windowStart ≤ offset ∧ offset + pageSize ≤ windowStart + rows.length` holds,
with `offset` equal to the requested target. -/
theorem c2_satisfaction {Row : Type} (optionsMaxRows : Option Nat) (s : WindowState Row)
    (pendingOffset pageSize : Nat) (rowsPage : List Row)
    (hfull : rowsPage.length =
      (planFetch pendingOffset pageSize (effectiveMaxRows optionsMaxRows (issueFetch s).1)).limit)
    (hbound : ∀ m, effectiveMaxRows optionsMaxRows (issueFetch s).1 = some m →
      pendingOffset + pageSize ≤ m) :
    satisfied
        (applyFetchSuccess optionsMaxRows pendingOffset
          (planFetch pendingOffset pageSize (effectiveMaxRows optionsMaxRows (issueFetch s).1))
          (issueFetch s).2 rowsPage (issueFetch s).1)
        pageSize ∧
      (applyFetchSuccess optionsMaxRows pendingOffset
          (planFetch pendingOffset pageSize (effectiveMaxRows optionsMaxRows (issueFetch s).1))
          (issueFetch s).2 rowsPage (issueFetch s).1).offset = pendingOffset := by
  have hgen : (issueFetch s).2 = (issueFetch s).1.currentGen := rfl
  rw [satisfied, applyFetchSuccess, if_pos hgen]
  refine ⟨⟨?_, ?_⟩, rfl⟩
  · show (planFetch pendingOffset pageSize
        (effectiveMaxRows optionsMaxRows (issueFetch s).1)).start ≤ pendingOffset
    rw [planFetch_start]
    omega
  · show pendingOffset + pageSize ≤
      (planFetch pendingOffset pageSize
        (effectiveMaxRows optionsMaxRows (issueFetch s).1)).start + rowsPage.length
    rw [hfull]
    rcases hm : effectiveMaxRows optionsMaxRows (issueFetch s).1 with _ | m
    · rw [planFetch]
      dsimp only [windowSizeOf]
      omega
    · have hb := hbound m hm
      rw [planFetch]
      dsimp only [windowSizeOf]
      omega

/-- C2, witness: the amended satisfaction theorem at a concrete full fetch
(empty cache, target offset 10, page size 20, 60 rows returned). -/
theorem c2_witness :
    satisfied
        (applyFetchSuccess none 10
          (planFetch 10 20 (effectiveMaxRows none (issueFetch emptyCacheState).1))
          (issueFetch emptyCacheState).2 (List.range 60) (issueFetch emptyCacheState).1)
        20 ∧
      (applyFetchSuccess none 10
          (planFetch 10 20 (effectiveMaxRows none (issueFetch emptyCacheState).1))
          (issueFetch emptyCacheState).2 (List.range 60) (issueFetch emptyCacheState).1).offset =
        10 :=
  c2_satisfaction none emptyCacheState 10 20 (List.range 60) (by decide)
    (fun m h => by rw [show effectiveMaxRows none
      (issueFetch emptyCacheState).1 = none from rfl] at h; cases h)

/-- Generalized discard: resolving any fetch whose captured generation is no
longer current leaves the state untouched. -/
theorem applyFetchSuccess_stale {Row : Type} (optionsMaxRows : Option Nat)
    (pendingOffset : Nat) (plan : FetchPlan) (gen : Nat) (rowsPage : List Row)
    (s : WindowState Row) (h : gen ≠ s.currentGen) :
    applyFetchSuccess optionsMaxRows pendingOffset plan gen rowsPage s = s := by
  rw [applyFetchSuccess, if_neg h]

/-- C3: the visible window only ever reflects the most recently issued fetch.
If a fetch for `p1` is issued, then a fetch for `p2` is issued before the first
resolves, then resolving the second installs its window, and the late arrival
of the superseded first result changes nothing — the final state still shows
the second fetch's window at offset `p2`. -/
theorem c3_stale_fetch_discarded {Row : Type} (optionsMaxRows : Option Nat)
    (s : WindowState Row) (p1 p2 pageSize : Nat) (rows1 rows2 : List Row) :
    applyFetchSuccess optionsMaxRows p1
        (planFetch p1 pageSize (effectiveMaxRows optionsMaxRows (issueFetch s).1))
        (issueFetch s).2 rows1
        (applyFetchSuccess optionsMaxRows p2
          (planFetch p2 pageSize (effectiveMaxRows optionsMaxRows (issueFetch (issueFetch s).1).1))
          (issueFetch (issueFetch s).1).2 rows2 (issueFetch (issueFetch s).1).1) =
      applyFetchSuccess optionsMaxRows p2
        (planFetch p2 pageSize (effectiveMaxRows optionsMaxRows (issueFetch (issueFetch s).1).1))
        (issueFetch (issueFetch s).1).2 rows2 (issueFetch (issueFetch s).1).1 ∧
      (applyFetchSuccess optionsMaxRows p2
        (planFetch p2 pageSize (effectiveMaxRows optionsMaxRows (issueFetch (issueFetch s).1).1))
        (issueFetch (issueFetch s).1).2 rows2 (issueFetch (issueFetch s).1).1).offset = p2 ∧
      (applyFetchSuccess optionsMaxRows p2
        (planFetch p2 pageSize (effectiveMaxRows optionsMaxRows (issueFetch (issueFetch s).1).1))
        (issueFetch (issueFetch s).1).2 rows2 (issueFetch (issueFetch s).1).1).windowRows =
        rows2 := by
  have hgen2 : (issueFetch (issueFetch s).1).2 = (issueFetch (issueFetch s).1).1.currentGen := rfl
  have hg1 : (issueFetch s).2 = s.currentGen + 1 := rfl
  have hcur : (applyFetchSuccess optionsMaxRows p2
      (planFetch p2 pageSize (effectiveMaxRows optionsMaxRows (issueFetch (issueFetch s).1).1))
      (issueFetch (issueFetch s).1).2 rows2 (issueFetch (issueFetch s).1).1).currentGen =
        s.currentGen + 2 := by
    rw [applyFetchSuccess, if_pos hgen2]
    rfl
  refine ⟨?_, ?_, ?_⟩
  · exact applyFetchSuccess_stale _ _ _ _ _ _ (by rw [hg1, hcur]; omega)
  · rw [applyFetchSuccess, if_pos hgen2]
  · rw [applyFetchSuccess, if_pos hgen2]

/-- A state with a cached window and a previously established total estimate,
used by the C6 counterexample. -/
def estimatedState : WindowState Nat :=
  { offset := 0, windowStart := 0, windowRows := [], knownTotalRows := some 100,
    error := none, loading := false, currentGen := 0 }

/-- C6, counterexample: a fetch that returns fewer rows than the requested
limit does NOT update the estimate when one is already set: with
`knownTotalRows = some 100`, a fetch planned as `start = 0, limit = 60`
returning 10 rows leaves the estimate at 100 instead of setting it to
`fetchStart + returnedRowCount = 10` (and 100 is no explicit metadata total —
the code never consults the source of the prior estimate). -/
theorem c6_counterexample :
    (applyFetchSuccess none 0
          (planFetch 0 20 (effectiveMaxRows none (issueFetch estimatedState).1))
          (issueFetch estimatedState).2 (List.range 10)
          (issueFetch estimatedState).1).knownTotalRows = some 100 ∧
      (List.range 10).length <
        (planFetch 0 20 (effectiveMaxRows none (issueFetch estimatedState).1)).limit ∧
      (some 100 : Option Nat) ≠ some (0 + (List.range 10).length) := by
  refine ⟨by decide, by decide, by decide⟩

/-- C6 (amended): the total-row-count estimate is set from a short read only
when no estimate exists yet and no explicit `--limit` cap is given; once set it
is never changed by later fetches (so it is never loosened — and never
re-tightened either); and an explicit normalizable metadata row count takes
precedence over the short-initial-read heuristic in `resolveInitialTotal`. -/
theorem c6_estimate {Row : Type} (optionsMaxRows : Option Nat) (pendingOffset : Nat)
    (plan : FetchPlan) (gen : Nat) (rowsPage : List Row) (s : WindowState Row) :
    (∀ t, s.knownTotalRows = some t →
        (applyFetchSuccess optionsMaxRows pendingOffset plan gen rowsPage s).knownTotalRows =
          some t) ∧
      (s.knownTotalRows = none → optionsMaxRows = none → rowsPage.length < plan.limit →
        gen = s.currentGen →
        (applyFetchSuccess optionsMaxRows pendingOffset plan gen rowsPage s).knownTotalRows =
          some (plan.start + rowsPage.length)) ∧
      (∀ v n rowsLen initialLimit, normalizeRowCount v = some n →
        resolveInitialTotal v rowsLen initialLimit = some n) := by
  refine ⟨?_, ?_, ?_⟩
  · intro t ht
    rw [applyFetchSuccess]
    split
    · simp only [ht]
      rw [if_neg (by simp [ht])]
    · exact ht
  · intro hnone hopts hshort hgen
    rw [applyFetchSuccess, if_pos hgen]
    simp only []
    rw [if_pos ⟨hshort, hopts, hnone⟩]
  · intro v n rowsLen initialLimit hv
    rw [resolveInitialTotal, hv]

/-- C6, witness: the estimate characterization applied at a concrete state —
an existing estimate of 100 survives a short read, a fresh cache adopts
`start + returned = 30`, and a metadata row count of 7 wins in
`resolveInitialTotal`. -/
theorem c6_witness :
    (applyFetchSuccess none 0 ⟨0, 60⟩ 1 (List.range 10)
        { estimatedState with currentGen := 1 }).knownTotalRows = some 100 ∧
      (applyFetchSuccess none 50 ⟨30, 60⟩ 1 []
        { emptyCacheState with currentGen := 1 }).knownTotalRows = some 30 ∧
      resolveInitialTotal (some (.numV 7)) 3 20 = some 7 := by
  refine ⟨?_, ?_, ?_⟩
  · exact (c6_estimate none 0 ⟨0, 60⟩ 1 (List.range 10)
      { estimatedState with currentGen := 1 }).1 100 rfl
  · have h := (c6_estimate none 50 ⟨30, 60⟩ 1 []
      { emptyCacheState with currentGen := 1 }).2.1 rfl rfl (by decide) rfl
    simpa using h
  · exact (c6_estimate none 0 ⟨0, 0⟩ 0 [] emptyCacheState).2.2
      (some (.numV 7)) 7 3 20 rfl

/-- A state with a good cached window, used by the C9 counterexample. -/
def goodWindowState : WindowState Nat :=
  { offset := 0, windowStart := 0, windowRows := [1, 2, 3], knownTotalRows := none,
    error := none, loading := false, currentGen := 0 }

/-- C9, counterexample: after a fetch failure the last good window IS kept on
screen — the error does not replace the grid.  With rows `[1,2,3]` cached and a
failed fetch, the visible slice is still `[1,2]` (page size 2) while the error
is recorded. -/
theorem c9_counterexample :
    visibleRows
        (applyFetchError (issueFetch goodWindowState).2 "boom"
          (issueFetch goodWindowState).1) 2 = [1, 2] ∧
      (applyFetchError (issueFetch goodWindowState).2 "boom"
          (issueFetch goodWindowState).1).error = some "boom" ∧
      (applyFetchError (issueFetch goodWindowState).2 "boom"
          (issueFetch goodWindowState).1).windowRows = [1, 2, 3] := by
  refine ⟨by decide, by decide, by decide⟩

/-- C9 (amended): a fetch failure is caught and recorded (never fatal), the
last good window and offset are left in place, the detail panel is forced open
showing `buildErrorDetail` of the message, and the error state is recoverable:
a navigation that issues a new fetch clears the error, and the fetch's
successful resolution installs the new window with no error. -/
theorem c9_error_handling {Row : Type} (optionsMaxRows : Option Nat) (s : WindowState Row)
    (message : String) (sidebarOpen : Bool) (fallback : String)
    (pendingOffset : Nat) (plan : FetchPlan) (rowsPage : List Row) :
    ((applyFetchError (issueFetch s).2 message (issueFetch s).1).error = some message ∧
        (applyFetchError (issueFetch s).2 message (issueFetch s).1).windowRows =
          s.windowRows ∧
        (applyFetchError (issueFetch s).2 message (issueFetch s).1).offset = s.offset ∧
        (applyFetchError (issueFetch s).2 message (issueFetch s).1).loading = false) ∧
      sidebarAfterError sidebarOpen
        (applyFetchError (issueFetch s).2 message (issueFetch s).1).error = true ∧
      detailFor (applyFetchError (issueFetch s).2 message (issueFetch s).1).error fallback =
        buildErrorDetail message ∧
      (issueFetch (applyFetchError (issueFetch s).2 message (issueFetch s).1)).1.error =
        none ∧
      (applyFetchSuccess optionsMaxRows pendingOffset plan
          (issueFetch (applyFetchError (issueFetch s).2 message (issueFetch s).1)).2 rowsPage
          (issueFetch (applyFetchError (issueFetch s).2 message (issueFetch s).1)).1).error =
        none ∧
      (applyFetchSuccess optionsMaxRows pendingOffset plan
          (issueFetch (applyFetchError (issueFetch s).2 message (issueFetch s).1)).2 rowsPage
          (issueFetch (applyFetchError (issueFetch s).2 message (issueFetch s).1)).1).windowRows =
        rowsPage := by
  have hgen : (issueFetch s).2 = (issueFetch s).1.currentGen := rfl
  have herr : applyFetchError (issueFetch s).2 message (issueFetch s).1 =
      { (issueFetch s).1 with error := some message, loading := false } := by
    rw [applyFetchError, if_pos hgen]
  have hgen2 : (issueFetch (applyFetchError (issueFetch s).2 message (issueFetch s).1)).2 =
      (issueFetch (applyFetchError (issueFetch s).2 message (issueFetch s).1)).1.currentGen :=
    rfl
  refine ⟨⟨?_, ?_, ?_, ?_⟩, ?_, ?_, ?_, ?_, ?_⟩
  · rw [herr]
  · rw [herr]; rfl
  · rw [herr]; rfl
  · rw [herr]
  · rw [herr]; rfl
  · rw [herr]; rfl
  · rfl
  · rw [applyFetchSuccess, if_pos hgen2]
    rfl
  · rw [applyFetchSuccess, if_pos hgen2]

/-! ### Tab state machine (`getAvailableTabs` / `cycleTab` / `getTabFromKeyName`,
utils.ts, plus the force-table effect of `App`) -/

/-- `ViewerTab` from types.ts. -/
inductive ViewerTab where
  | table
  | layout
  | bytes
deriving Repr, DecidableEq

/-- `getAvailableTabs(hasLayout)`. -/
def getAvailableTabs (hasLayout : Bool) : List ViewerTab :=
  if hasLayout then [.table, .layout, .bytes] else [.table]

/-- The `1 | -1` cycling direction type. -/
inductive TabDir where
  | next
  | prev
deriving Repr, DecidableEq

/-- The direction as the JS number `1` or `-1`. -/
def TabDir.toInt : TabDir → Int
  | .next => 1
  | .prev => -1

/-- `cycleTab(current, availableTabs, direction)`: `indexOf` yields `-1` when
the current tab is absent (modelled by `List.indexOf` returning the length),
in which case the start index is 0; the next index wraps modulo the list
length.  (`availableTabs[nextIndex]` is modelled with a default that is never
used for the nonempty lists produced by `getAvailableTabs`.) -/
def cycleTab (current : ViewerTab) (availableTabs : List ViewerTab) (direction : TabDir) :
    ViewerTab :=
  let idx := availableTabs.indexOf current
  let startIndex : Int := if idx < availableTabs.length then (idx : Int) else 0
  let nextIndex := (startIndex + direction.toInt + availableTabs.length).tmod
    availableTabs.length
  availableTabs.getD nextIndex.toNat .table

/-- `getTabFromKeyName(name, availableTabs)`. -/
def getTabFromKeyName (name : String) (availableTabs : List ViewerTab) : Option ViewerTab :=
  if name = "1" then some .table
  else if name = "2" ∧ .layout ∈ availableTabs then some .layout
  else if name = "3" ∧ .bytes ∈ availableTabs then some .bytes
  else none

/-- The tab-related state of `App`: the active tab and whether storage-layout
metadata reports at least one row group. -/
structure TabState where
  activeTab : ViewerTab
  hasLayout : Bool
deriving Repr, DecidableEq

/-- The force-table effect of `App`
(`if (!hasLayout && activeTab !== "table") setActiveTab("table")`), which runs
after every state change. -/
def normalizeTab (s : TabState) : TabState :=
  if ¬ s.hasLayout ∧ s.activeTab ≠ .table then { s with activeTab := .table } else s

/-- One input event of the tab machine: a number-key press, a cycle
(tab / shift-tab / bracket keys), or a change in layout-metadata availability. -/
inductive TabEvent where
  | key (name : String)
  | cycle (direction : TabDir)
  | layoutChanged (hasLayout : Bool)

/-- One step of the tab machine: apply the event's `setActiveTab` (a no-op for
an unavailable tab), then the force-table effect. -/
def tabStep (s : TabState) (e : TabEvent) : TabState :=
  let s' := match e with
    | .key n =>
      match getTabFromKeyName n (getAvailableTabs s.hasLayout) with
      | some t => { s with activeTab := t }
      | none => s
    | .cycle d => { s with activeTab := cycleTab s.activeTab (getAvailableTabs s.hasLayout) d }
    | .layoutChanged b => { s with hasLayout := b }
  normalizeTab s'

/-- Run the tab machine from an initial state over a sequence of events. -/
def runTabs (s : TabState) (events : List TabEvent) : TabState :=
  events.foldl tabStep s

theorem normalizeTab_mem (s : TabState) :
    (normalizeTab s).activeTab ∈ getAvailableTabs (normalizeTab s).hasLayout := by
  rw [normalizeTab]
  by_cases hl : s.hasLayout
  · rw [if_neg (by simp [hl])]
    rw [getAvailableTabs, if_pos hl]
    cases s.activeTab <;> simp
  · simp only [Bool.not_eq_true] at hl
    by_cases ht : s.activeTab = .table
    · rw [if_neg (by simp [ht])]
      rw [getAvailableTabs, hl, ht]
      simp
    · rw [if_pos ⟨by simp [hl], ht⟩]
      rw [getAvailableTabs]
      simp [hl]

theorem tabStep_mem (s : TabState) (e : TabEvent) :
    (tabStep s e).activeTab ∈ getAvailableTabs (tabStep s e).hasLayout := by
  exact normalizeTab_mem _

/-- C7: (i) from the initial Table tab, after any event sequence the active tab
is a member of the available-tab set ({Table, Layout, Bytes} with layout
metadata, {Table} without); (ii) cycling always lands inside the available set;
(iii) with no layout metadata, selecting tab 2 or 3 is a no-op on the sole
reachable state; (iv) when layout metadata becomes unavailable the state is
forced back to Table. -/
theorem c7_tab_machine :
    (∀ (events : List TabEvent) (h0 : Bool),
        (runTabs ⟨.table, h0⟩ events).activeTab ∈
          getAvailableTabs (runTabs ⟨.table, h0⟩ events).hasLayout) ∧
      (∀ (t : ViewerTab) (h : Bool) (d : TabDir),
        cycleTab t (getAvailableTabs h) d ∈ getAvailableTabs h) ∧
      (tabStep ⟨.table, false⟩ (.key "2") = ⟨.table, false⟩ ∧
        tabStep ⟨.table, false⟩ (.key "3") = ⟨.table, false⟩) ∧
      (∀ t : ViewerTab, tabStep ⟨t, true⟩ (.layoutChanged false) = ⟨.table, false⟩) := by
  refine ⟨?_, ?_, ⟨by decide, by decide⟩, ?_⟩
  · intro events h0
    induction events generalizing h0 with
    | nil =>
      rw [runTabs, List.foldl_nil, getAvailableTabs]
      split <;> simp
    | cons e es ih =>
      rw [runTabs, List.foldl_cons]
      have hstep := tabStep_mem ⟨.table, h0⟩ e
      rcases hs : tabStep ⟨.table, h0⟩ e with ⟨t', h'⟩
      rw [hs] at hstep
      cases h' with
      | false =>
        have ht' : t' = .table := by
          rw [getAvailableTabs] at hstep
          simpa using hstep
        rw [ht']
        exact ih false
      | true =>
        have hinv : ∀ (s : TabState) (evs : List TabEvent),
            s.activeTab ∈ getAvailableTabs s.hasLayout →
            (evs.foldl tabStep s).activeTab ∈
              getAvailableTabs (evs.foldl tabStep s).hasLayout := by
          intro s evs
          induction evs generalizing s with
          | nil => intro h; exact h
          | cons e2 es2 ih2 =>
            intro _
            rw [List.foldl_cons]
            exact ih2 _ (tabStep_mem s e2)
        exact hinv ⟨t', true⟩ es hstep
  · intro t h d
    cases t <;> cases h <;> cases d <;> decide
  · intro t
    cases t <;> decide

/-! ### Selection (`TableViewer`: reconciliation effect, row click handler,
horizontal slicing) -/

/-- The `TableViewer` selection effect (table-viewer.tsx lines 90-100): when
the visible grid is empty the selection is cleared; otherwise an existing
selection is clamped to the new bounds with `Math.min`, and a missing one is
initialised to the top-left cell. -/
def reconcileSelection (rowCount colCount : Nat) (current : Option (Nat × Nat)) :
    Option (Nat × Nat) :=
  if rowCount = 0 ∨ colCount = 0 then none
  else
    match current with
    | some rc => some (min rc.1 (rowCount - 1), min rc.2 (colCount - 1))
    | none => some (0, 0)

/-- The loop of `findColumnIndex` from utils.ts, carrying the running index. -/
def findColumnIndexFrom (x : Nat) : List ColumnRange → Nat → Int
  | [], _ => -1
  | r :: rest, index =>
    if r.start ≤ x ∧ x ≤ r.stop then (index : Int) else findColumnIndexFrom x rest (index + 1)

/-- `findColumnIndex(x, ranges)` from utils.ts: the index of the first range
containing `x` (bounds inclusive), else `-1`. -/
def findColumnIndex (x : Nat) (ranges : List ColumnRange) : Int :=
  findColumnIndexFrom x ranges 0

/-- The row `onMouseDown` handler (table-viewer.tsx lines 263-273): resolve the
absolute pointer column through the column-range table; on a hit, set the
selection to the clicked rendered-line index (`index` over
`visibleLines.rows`, which includes the blank padding lines) and that column;
on a miss, leave the selection unchanged. -/
def clickSelection (rowIndex absoluteX : Nat) (ranges : List ColumnRange)
    (current : Option (Nat × Nat)) : Option (Nat × Nat) :=
  let colIndex := findColumnIndex absoluteX ranges
  if 0 ≤ colIndex then some (rowIndex, colIndex.toNat) else current

/-- The `sliceLine` closure of `applyHorizontalScroll`: an empty result for a
non-positive width, otherwise
`(xOffset <= 0 ? line.slice(0, width) : line.slice(xOffset, xOffset + width)).padEnd(width)`. -/
def sliceLine (width xOffset : Nat) (line : Str) : Str :=
  if width = 0 then []
  else
    let sliced := if xOffset = 0 then line.take width else (line.drop xOffset).take width
    sliced ++ List.replicate (width - sliced.length) ' '

/-- The output of `applyHorizontalScroll`. -/
structure VisibleLines where
  headerName : Str
  headerType : Str
  separator : Str
  rows : List Str
deriving Repr, DecidableEq

/-- `applyHorizontalScroll(lines, width, xOffset, pageSize)` from utils.ts:
slice every line to the horizontal viewport and pad the row list with blank
lines so the rendered region always has exactly `pageSize` lines. -/
def applyHorizontalScroll (lines : GridLines) (width xOffset pageSize : Nat) : VisibleLines :=
  let rows := (lines.rowLines.take pageSize).map (sliceLine width xOffset)
  let emptyRow := if 0 < width then List.replicate width ' ' else []
  { headerName := sliceLine width xOffset lines.headerNameLine
    headerType := sliceLine width xOffset lines.headerTypeLine
    separator := sliceLine width xOffset lines.separatorLine
    rows := rows ++ List.replicate (pageSize - rows.length) emptyRow }

theorem findColumnIndexFrom_spec (x : Nat) (ranges : List ColumnRange) :
    ∀ start : Nat, findColumnIndexFrom x ranges start = -1 ∨
      ∃ j : Nat, findColumnIndexFrom x ranges start = (j : Int) ∧
        start ≤ j ∧ j < start + ranges.length := by
  induction ranges with
  | nil => intro start; left; rfl
  | cons r rest ih =>
    intro start
    rw [findColumnIndexFrom]
    by_cases h : r.start ≤ x ∧ x ≤ r.stop
    · right
      refine ⟨start, by rw [if_pos h], le_refl _, ?_⟩
      simp only [List.length_cons]
      omega
    · rw [if_neg h]
      rcases ih (start + 1) with h1 | ⟨j, hj, hj1, hj2⟩
      · left; exact h1
      · right
        refine ⟨j, hj, by omega, ?_⟩
        simp only [List.length_cons]
        omega

/-- The one-column three-row grid used by the C8 counterexample and witness
(page size 10, so seven rendered lines below the data are blank padding). -/
def sampleGrid3 : GridState :=
  { columns := [{ name := ['a','b','c','d','e','f'], type := [] }],
    rows := [[(['a','b','c','d','e','f'], some ['x'])],
      [(['a','b','c','d','e','f'], some ['y'])],
      [(['a','b','c','d','e','f'], some ['z'])]] }

/-- C8, counterexample: a present selection does NOT always index a row inside
the currently visible window.  With 3 visible rows rendered into a page of 10
lines (`applyHorizontalScroll` pads with blank lines), a click on rendered line
5 at a column position inside the single column's range sets
`selection = (5, 0)` — a row index beyond the 3-row window — and no re-clamp
runs, since the reconciliation effect only fires when the grid dimensions
change. -/
theorem c8_counterexample :
    clickSelection 5 5 (buildGridLines sampleGrid3 0 0).columnRanges none = some (5, 0) ∧
      sampleGrid3.rows.length = 3 ∧
      ¬ (5 < sampleGrid3.rows.length) ∧
      (applyHorizontalScroll (buildGridLines sampleGrid3 0 0) 11 0 10).rows.length = 10 ∧
      (buildGridLines sampleGrid3 0 0).rowLines.length = 3 := by
  refine ⟨by decide, by decide, by decide, by decide, by decide⟩

/-- C8 (amended): the selection-reconciliation effect keeps a present selection
inside the currently visible window and clamps (never drops) an existing
selection when the window shrinks; a pointer click either leaves the selection
unchanged (no column hit) or sets it to the clicked rendered-line index with a
column index that is valid in the column-range table — but that row index is
bounded only by the rendered page (`applyHorizontalScroll` always produces
exactly `pageSize` row lines, padded past the data), so a click on a padded
blank line can set a row index beyond the visible rows. -/
theorem c8_selection (rowCount colCount : Nat) (current : Option (Nat × Nat)) :
    (∀ r c, reconcileSelection rowCount colCount current = some (r, c) →
        r < rowCount ∧ c < colCount) ∧
      (∀ r c, current = some (r, c) → 0 < rowCount → 0 < colCount →
        reconcileSelection rowCount colCount current =
          some (min r (rowCount - 1), min c (colCount - 1))) ∧
      (∀ (rowIndex absoluteX : Nat) (ranges : List ColumnRange) (cur : Option (Nat × Nat)),
        clickSelection rowIndex absoluteX ranges cur = cur ∨
          ∃ j, j < ranges.length ∧
            clickSelection rowIndex absoluteX ranges cur = some (rowIndex, j)) ∧
      (∀ (lines : GridLines) (width xOffset pageSize : Nat),
        (applyHorizontalScroll lines width xOffset pageSize).rows.length = pageSize) := by
  refine ⟨?_, ?_, ?_, ?_⟩
  · intro r c h
    rw [reconcileSelection.eq_def] at h
    split at h
    · cases h
    · next hne =>
      push_neg at hne
      rcases current with _ | ⟨r0, c0⟩
      · simp only [Option.some.injEq, Prod.mk.injEq] at h
        omega
      · simp only [Option.some.injEq, Prod.mk.injEq] at h
        omega
  · intro r c hcur hr hc
    subst hcur
    rw [reconcileSelection.eq_def, if_neg (by omega)]
  · intro rowIndex absoluteX ranges cur
    rw [clickSelection]
    rcases findColumnIndexFrom_spec absoluteX ranges 0 with hmiss | ⟨j, hj, _, hj2⟩
    · left
      have hfi : findColumnIndex absoluteX ranges = -1 := hmiss
      rw [hfi, if_neg (by omega)]
    · right
      refine ⟨j, by omega, ?_⟩
      have hfi : findColumnIndex absoluteX ranges = (j : Int) := hj
      rw [hfi, if_pos (by omega)]
      simp
  · intro lines width xOffset pageSize
    rw [applyHorizontalScroll]
    simp only [List.length_append, List.length_replicate, List.length_map, List.length_take]
    omega

/-- C8, witness: a window shrink from a selection at `(5, 1)` to a `2 × 3`
grid clamps the selection to `(1, 1)`, which is inside the window; a click on
rendered line 1 of the sample grid selects `(1, 0)` with a valid column; and
the sample grid renders exactly 10 lines at page size 10. -/
theorem c8_witness :
    reconcileSelection 2 3 (some (5, 1)) = some (min 5 (2 - 1), min 1 (3 - 1)) ∧
      (1 < 2 ∧ 1 < 3) ∧
      (clickSelection 1 5 (buildGridLines sampleGrid3 0 0).columnRanges none = none ∨
        ∃ j, j < (buildGridLines sampleGrid3 0 0).columnRanges.length ∧
          clickSelection 1 5 (buildGridLines sampleGrid3 0 0).columnRanges none =
            some (1, j)) ∧
      (applyHorizontalScroll (buildGridLines sampleGrid3 0 0) 11 0 10).rows.length = 10 := by
  have h := c8_selection 2 3 (some (5, 1))
  refine ⟨h.2.1 5 1 rfl (by omega) (by omega), h.1 1 1 (by decide), ?_, ?_⟩
  · exact h.2.2.1 1 5 (buildGridLines sampleGrid3 0 0).columnRanges none
  · exact h.2.2.2 (buildGridLines sampleGrid3 0 0) 11 0 10

end Parquetlens
